import Mathlib

/-!
# Verification of rustymon-world's tag-matching rule engine and grid clipper

This file gives a shallow embedding, in Lean, of the core algorithms of the
rustymon-world repository:

* the tag matchers (`src/features/simple.rs`, `src/features/aho_corasick.rs`,
  `src/features/yada.rs`),
* the boolean simplifier (`src/features/simplify.rs`),
* the config statement handling (`src/features/config.rs`),
* the grid clipper (`src/geometry/grid.rs`, `src/geometry/primitives.rs`,
  `src/geometry/polygon.rs`) and the generator's tile callbacks
  (`src/generator.rs`).

Rust `f64` coordinates are modelled as exact rationals (`ℚ`), `isize` indices
as `ℤ` (with the saturating `f64 → isize` cast modelled explicitly), `usize`
results as `ℕ`, `HashMap`s as association lists whose lookup returns the most
recently inserted binding, and `HashSet`s as lists.  Fallible operations
return `Option`/`Except`.
-/

/-! ## Tag matchers: `features/simple.rs`

`Pattern`, `Branch` and `parse_tags` mirror `src/features/simple.rs`.
A `HashMap<T, Pattern<T>>` is modelled as an association list; the tag
`HashMap` built by `HashMap::from_iter(tags)` keeps the *last* binding for a
duplicated key, which `tagsGet` reproduces by searching the reversed list. -/

inductive Pattern (T : Type) where
  | any : Pattern T
  | single : T → Pattern T
  | set : List T → Pattern T
deriving Repr, DecidableEq

/-- `Branch<T> = (HashMap<T, Pattern<T>>, usize)` from `simple.rs`. -/
def SimpleBranch (K V : Type) : Type := List (K × Pattern V) × Nat

/-- Lookup in the tag map built by `HashMap::from_iter(tags)`:
the most recently inserted binding for a key wins. -/
def tagsGet {K V : Type} [DecidableEq K] (tags : List (K × V)) (k : K) : Option V :=
  (tags.reverse.find? (fun p => p.1 = k)).map Prod.snd

/-- One iteration of the branch loop body of `parse_tags`: every expected
`(key, pattern)` entry of the branch map must be satisfied by the tag map. -/
def branchMatches {K V : Type} [DecidableEq K] [DecidableEq V]
    (tags : List (K × V)) (map : List (K × Pattern V)) : Bool :=
  map.all fun kp =>
    match tagsGet tags kp.1 with
    | none => false
    | some tagValue =>
      match kp.2 with
      | Pattern.any => true
      | Pattern.single expValue => expValue = tagValue
      | Pattern.set expValues => expValues.contains tagValue

/-- `simple::parse_tags`: walk the branch list in order and return the first
branch whose map matches the tags. -/
def parseTags {K V : Type} [DecidableEq K] [DecidableEq V]
    (tags : List (K × V)) : List (SimpleBranch K V) → Option Nat
  | [] => none
  | b :: rest => if branchMatches tags b.1 then some b.2 else parseTags tags rest

/-! ## The Aho-Corasick backed parser: `features/aho_corasick.rs`

Strings are modelled as `List Char`.  `ahoFind` models the external
`aho_corasick` crate's `AhoCorasick::find` under its default standard
semantics: the reported match is the one with the smallest end position (the
first match the automaton sees); ties between patterns ending at the same
position are broken by pattern precedence.  Empty patterns do not occur in
the configs considered here. -/

abbrev Str : Type := List Char

/-- First pattern (by index) that is a non-empty suffix of `qe`, with its
length. Models the pattern reported by the automaton at one end position. -/
def suffixMatchAt (pats : List Str) (qe : Str) : Option (Nat × Nat) :=
  (pats.enum.find? (fun p => !p.2.isEmpty && p.2.isSuffixOf qe)).map
    (fun p => (p.1, p.2.length))

/-- Model of `AhoCorasick::find` (standard semantics): the match with the
smallest end position, returned as `(start, end, pattern index)`. -/
def ahoFind (pats : List Str) (q : Str) : Option (Nat × Nat × Nat) :=
  (List.range (q.length + 1)).findSome? fun e =>
    (suffixMatchAt pats (q.take e)).map fun m => (e - m.2, e, m.1)

/-- `ACParser::find` translated verbatim from `aho_corasick.rs`: note that it
returns `None` when `result.start() == 0 && result.end() == tag.len()` and
`Some(result.pattern())` otherwise. -/
def acFind (pats : List Str) (tag : Str) : Option Nat :=
  match ahoFind pats tag with
  | none => none
  | some m =>
    if m.1 = 0 ∧ m.2.1 = tag.length then none else some m.2.2

/-- `ACParser::tokenize`: keys that fail `find` are dropped with their tag;
values that fail `find` become `None`. -/
def acTokenize (pats : List Str) (tags : List (Str × Str)) : List (Nat × Option Nat) :=
  tags.filterMap fun kv => (acFind pats kv.1).map fun k => (k, acFind pats kv.2)

/-- `usize::MAX`, the sentinel substituted for absent value tokens in
`ACParser::area/node/way`. -/
def usizeMax : Nat := 2 ^ 64 - 1

/-- `ACParser::area` (same shape as `node`/`way`): tokenize the tags, replace
missing value tokens by the sentinel, then run `simple::parse_tags`. -/
def acParseTags (pats : List Str) (branches : List (SimpleBranch Nat Nat))
    (tags : List (Str × Str)) : Option Nat :=
  parseTags ((acTokenize pats tags).map fun kv => (kv.1, kv.2.getD usizeMax)) branches

/-! ## Config statement handling: `features/config.rs`

`ConfigParser::handle_statement` processes alias declarations and branch
statements of one block.  The pest plumbing (`Pair`, `Rule`) is out of scope;
a statement is modelled by its payload.  The alias `HashMap` is modelled as
an association list where inserting prepends and lookup returns the most
recent binding. -/

/-- A statement of one config block: an alias declaration `name = number` or
a branch `result_id_or_alias: condition;` (the condition payload is opaque
here). -/
inductive CfgStmt (E : Type) where
  | aliasDecl : String → Nat → CfgStmt E
  | branch : String ⊕ Nat → E → CfgStmt E

/-- `Branch { id, expr }` from `config.rs`. -/
structure CfgBranch (E : Type) where
  id : Nat
  expr : E
deriving DecidableEq

/-- `ParserError::UnknownAlias` — the only error `handle_statement` can raise
at the statement level. -/
inductive CfgError where
  | unknownAlias : String → CfgError
deriving DecidableEq

/-- `aliases.get(identifier)` over the association-list model. -/
def aliasGet (al : List (String × Nat)) (n : String) : Option Nat :=
  (al.find? (fun p => p.1 = n)).map Prod.snd

/-- `ConfigParser::handle_statement`: an alias inserts into the alias map; a
branch resolves its result id (a literal number, or an alias which must have
been declared) and is pushed onto the branch list. -/
def handleStatement {E : Type} (stmt : CfgStmt E) (branches : List (CfgBranch E))
    (aliases : List (String × Nat)) :
    Except CfgError (List (CfgBranch E) × List (String × Nat)) :=
  match stmt with
  | CfgStmt.aliasDecl ident number => Except.ok (branches, (ident, number) :: aliases)
  | CfgStmt.branch result expr =>
    match result with
    | Sum.inr number => Except.ok (branches ++ [⟨number, expr⟩], aliases)
    | Sum.inl ident =>
      match aliasGet aliases ident with
      | some id => Except.ok (branches ++ [⟨id, expr⟩], aliases)
      | none => Except.error (CfgError.unknownAlias ident)

/-- The statement loop of `ConfigParser::handle_file` over one block's
statements. -/
def handleStatements {E : Type} : List (CfgStmt E) → List (CfgBranch E) →
    List (String × Nat) → Except CfgError (List (CfgBranch E))
  | [], branches, _ => Except.ok branches
  | s :: rest, branches, aliases =>
    match handleStatement s branches aliases with
    | Except.error e => Except.error e
    | Except.ok (branches', aliases') => handleStatements rest branches' aliases'

/-- Declarative description of the claimed parser behaviour (this one follows
the spec's words, to be compared with `handleStatements` which follows the
source): branches appear in source order, and an alias identifier resolves to
the numeric id most recently declared *before* it in the same block. -/
def specResolveBranches {E : Type} : List (CfgStmt E) → List (String × Nat) →
    Except CfgError (List (CfgBranch E))
  | [], _ => Except.ok []
  | CfgStmt.aliasDecl n v :: rest, al => specResolveBranches rest ((n, v) :: al)
  | CfgStmt.branch r e :: rest, al =>
    match (match r with
           | Sum.inl name =>
             match aliasGet al name with
             | some v => Except.ok v
             | none => Except.error (CfgError.unknownAlias name)
           | Sum.inr num => Except.ok num : Except CfgError Nat) with
    | Except.error err => Except.error err
    | Except.ok id =>
      match specResolveBranches rest al with
      | Except.error err => Except.error err
      | Except.ok bs => Except.ok (⟨id, e⟩ :: bs)

/-! ## Theorems about the matchers -/

/-- C2 counterpart: `ACParser::find`, evaluated on a tokenizer holding the
single pattern `"highway"`.  The automaton reports the whole-string match
`(start 0, end 7)` for the query `"highway"`, yet `find` returns `None` for
it, while the query `"highwayy"` — where the match covers only a proper
substring — yields `Some` token.  This is the exact opposite of the claimed
behaviour: the `if` in `ACParser::find` has its branches swapped. -/
theorem acFind_rejects_whole_string_match :
    ahoFind ["highway".toList] "highway".toList = some (0, 7, 0) ∧
    acFind ["highway".toList] "highway".toList = none ∧
    acFind ["highway".toList] "highwayy".toList = some 0 := by
  refine ⟨by decide, by decide, by decide⟩

/-- C1 counterpart: the naive matcher and the interned (Aho-Corasick backed)
matcher disagree on the config `ways = [({highway: Single(motorway)}, 1)]`
(token dictionary: `highway ↦ 0`, `motorway ↦ 1`) and the tag set
`{highway: motorway}`: the naive matcher returns branch id 1, the interned
matcher returns no match, because `ACParser::find` drops every tag whose key
is an exact token (its full-span test is inverted). -/
theorem matcher_strategies_disagree :
    parseTags [("highway".toList, "motorway".toList)]
      [([("highway".toList, Pattern.single "motorway".toList)], 1)] = some 1 ∧
    acParseTags ["highway".toList, "motorway".toList]
      [([(0, Pattern.single 1)], 1)]
      [("highway".toList, "motorway".toList)] = none := by
  exact ⟨by decide, by decide⟩

/-- C8: first-match-wins and parser branch order.  (a) `parse_tags` returns
exactly the result id of the first branch, in list order, whose map matches
the tag set — later matching branches are never consulted.  (b) the statement
loop of `handle_file`/`handle_statement` appends branches in source order and
resolves alias identifiers to the id most recently declared before them, as
described by the declarative `specResolveBranches`. -/
theorem branch_order_first_match_wins {K V E : Type} [DecidableEq K] [DecidableEq V]
    (tags : List (K × V)) (lookup : List (SimpleBranch K V))
    (stmts : List (CfgStmt E)) (branches : List (CfgBranch E))
    (aliases : List (String × Nat)) :
    parseTags tags lookup
      = (lookup.find? (fun b => branchMatches tags b.1)).map Prod.snd ∧
    handleStatements stmts branches aliases
      = (specResolveBranches stmts aliases).map (fun bs => branches ++ bs) := by
  constructor
  · induction lookup with
    | nil => rfl
    | cons b rest ih =>
      by_cases h : branchMatches tags b.1
      · simp [parseTags, h, List.find?]
      · simp only [parseTags, h, if_false, ih, List.find?]
        simp [h]
  · induction stmts generalizing branches aliases with
    | nil => simp [handleStatements, specResolveBranches, Except.map]
    | cons s rest ih =>
      cases s with
      | aliasDecl n v =>
        simp [handleStatements, handleStatement, specResolveBranches, ih]
      | branch r e =>
        cases r with
        | inl name =>
          cases h : aliasGet aliases name with
          | none =>
            simp [handleStatements, handleStatement, specResolveBranches, h, Except.map]
          | some v =>
            simp only [handleStatements, handleStatement, specResolveBranches, h, ih]
            cases specResolveBranches rest aliases with
            | error err => simp [Except.map]
            | ok bs => simp [Except.map]
        | inr num =>
          simp only [handleStatements, handleStatement, specResolveBranches, ih]
          cases specResolveBranches rest aliases with
          | error err => simp [Except.map]
          | ok bs => simp [Except.map]

/-! ## The boolean simplifier: `features/simplify.rs`

`SimpleExpr` mirrors `simplify.rs` (the `Temp` placeholder variant is omitted:
it is an implementation artifact of in-place mutation that never appears in
the tree outside the methods, which the translation below renders as pure functions).
`SimpleExpr.flatten`, the `_flatten` loop (`flattenLoop`), the rewrite pass
`SimpleExpr.simplify` (returning the new tree and the `changed` flag), the
conversion `SimpleExpr.from_config` and the top-level fixpoint loop
`simplify` are translated from the source.  `runSimplify` is the fuelled
unrolling of the `while expr.simplify() {}` loop: `none` means the fuel ran
out; the termination theorem shows fuel `mu e` always suffices, and
`simplifyFix` returns that fixpoint.  `mu` is the termination measure and
`isNF` the normal form claimed by the spec. -/

inductive SimpleExpr (T : Type) where
  | not : SimpleExpr T → SimpleExpr T
  | and : List (SimpleExpr T) → SimpleExpr T
  | or : List (SimpleExpr T) → SimpleExpr T
  | terminal : T → SimpleExpr T

variable {T : Type}

mutual
def SimpleExpr.size : SimpleExpr T → Nat
  | .terminal _ => 1
  | .not e => e.size + 1
  | .and es => SimpleExpr.sizeList es + 1
  | .or es => SimpleExpr.sizeList es + 1
def SimpleExpr.sizeList : List (SimpleExpr T) → Nat
  | [] => 0
  | e :: es => e.size + SimpleExpr.sizeList es
end

def swapRemove {α : Type} (l : List α) (i : Nat) : List α :=
  match l.getLast? with
  | none => l
  | some last => (l.set i last).dropLast

def SimpleExpr.isAnd : SimpleExpr T → Bool
  | .and _ => true
  | _ => false

def SimpleExpr.isOr : SimpleExpr T → Bool
  | .or _ => true
  | _ => false

def SimpleExpr.innerVec : SimpleExpr T → List (SimpleExpr T)
  | .and es => es
  | .or es => es
  | _ => []

def flattenLoop (isVariant : SimpleExpr T → Bool) :
    List (SimpleExpr T) → Nat → Nat → Bool → List (SimpleExpr T) × Bool
  | vec, index, unchecked, changed =>
    if index < unchecked then
      match vec[index]? with
      | none => (vec, changed)
      | some e =>
        if isVariant e then
          flattenLoop isVariant (swapRemove vec index ++ e.innerVec) index (unchecked - 1) true
        else
          flattenLoop isVariant vec (index + 1) unchecked changed
    else
      (vec, changed)
termination_by vec index unchecked _ => unchecked - index
decreasing_by all_goals omega

def SimpleExpr.flatten : SimpleExpr T → SimpleExpr T × Bool
  | .not (.not x) => (x, true)
  | .not (.and es) => (.not (.and es), false)
  | .not (.or es) => (.not (.or es), false)
  | .not (.terminal t) => (.not (.terminal t), false)
  | .and es =>
    let r := flattenLoop SimpleExpr.isAnd es 0 es.length false
    (.and r.1, r.2)
  | .or es =>
    let r := flattenLoop SimpleExpr.isOr es 0 es.length false
    (.or r.1, r.2)
  | .terminal t => (.terminal t, false)

def lastOrIdx (es : List (SimpleExpr T)) : Option Nat :=
  (es.enum.reverse.find? (fun p => p.2.isOr)).map Prod.fst

theorem sizeList_append (a b : List (SimpleExpr T)) :
    SimpleExpr.sizeList (a ++ b) = SimpleExpr.sizeList a + SimpleExpr.sizeList b := by
  induction a with
  | nil => simp [SimpleExpr.sizeList]
  | cons x xs ih => simp [SimpleExpr.sizeList, ih]; ring

theorem size_pos (e : SimpleExpr T) : 1 ≤ e.size := by
  cases e <;> simp [SimpleExpr.size] <;> omega

theorem size_le_sizeList_of_mem {w : SimpleExpr T} {ws : List (SimpleExpr T)}
    (h : w ∈ ws) : w.size ≤ SimpleExpr.sizeList ws := by
  induction ws with
  | nil => simp at h
  | cons x xs ih =>
    simp only [List.mem_cons] at h
    rcases h with rfl | h
    · simp [SimpleExpr.sizeList]
    · have := ih h
      simp [SimpleExpr.sizeList]
      omega

theorem sizeList_eraseIdx {es : List (SimpleExpr T)} {i : Nat} {x : SimpleExpr T}
    (h : es[i]? = some x) :
    SimpleExpr.sizeList (es.eraseIdx i) + x.size = SimpleExpr.sizeList es := by
  induction es generalizing i with
  | nil => simp at h
  | cons y ys ih =>
    cases i with
    | zero =>
      simp at h
      subst h
      simp [List.eraseIdx, SimpleExpr.sizeList]
      ring
    | succ j =>
      simp at h
      have := ih h
      simp [List.eraseIdx, SimpleExpr.sizeList]
      omega

def SimpleExpr.simplify : SimpleExpr T → SimpleExpr T × Bool
  | .not (.not x) =>
    let p := SimpleExpr.simplify x
    let q := SimpleExpr.flatten (.not (.not p.1))
    (q.1, q.2 || p.2)
  | .not (.and vs) =>
    let vs' := vs.attach.map fun v => (SimpleExpr.simplify (.not v.1)).1
    let q := SimpleExpr.flatten (.or vs')
    (q.1, q.2 || true)
  | .not (.or vs) =>
    let vs' := vs.attach.map fun v => (SimpleExpr.simplify (.not v.1)).1
    let q := SimpleExpr.flatten (.and vs')
    (q.1, q.2 || true)
  | .not (.terminal t) =>
    let q := SimpleExpr.flatten (.not (.terminal t))
    (q.1, q.2 || false)
  | .and es =>
    (match h1 : lastOrIdx es with
    | some i =>
      (match h2 : es[i]? with
      | some (.or ws) =>
        let rest := es.eraseIdx i
        let children := ws.attach.map fun w => (SimpleExpr.simplify (.and (rest ++ [w.1]))).1
        let q := SimpleExpr.flatten (.or children)
        (q.1, q.2 || true)
      | _ => (.and es, false))
    | none =>
      let pairs := es.attach.map fun v => SimpleExpr.simplify v.1
      let q := SimpleExpr.flatten (.and (pairs.map Prod.fst))
      (q.1, q.2 || pairs.any Prod.snd))
  | .or es =>
    let pairs := es.attach.map fun v => SimpleExpr.simplify v.1
    let q := SimpleExpr.flatten (.or (pairs.map Prod.fst))
    (q.1, q.2 || pairs.any Prod.snd)
  | .terminal t =>
    let q := SimpleExpr.flatten (.terminal t)
    (q.1, q.2 || false)
termination_by e => e.size
decreasing_by
  · simp [SimpleExpr.size]; omega
  · have := size_le_sizeList_of_mem v.2
    simp [SimpleExpr.size]
    omega
  · have := size_le_sizeList_of_mem v.2
    simp [SimpleExpr.size]
    omega
  · have h3 := sizeList_eraseIdx h2
    have h4 := size_le_sizeList_of_mem w.2
    simp [SimpleExpr.size, sizeList_append, SimpleExpr.sizeList] at *
    omega
  · have := size_le_sizeList_of_mem v.2
    simp [SimpleExpr.size]
    omega
  · have := size_le_sizeList_of_mem v.2
    simp [SimpleExpr.size]
    omega


mutual
def SimpleExpr.mu : SimpleExpr T → Nat
  | .terminal _ => 2
  | .not e => 2 ^ e.mu
  | .and es => 2 * SimpleExpr.muProd es
  | .or es => 2 + SimpleExpr.muSum es
def SimpleExpr.muProd : List (SimpleExpr T) → Nat
  | [] => 1
  | e :: es => e.mu * SimpleExpr.muProd es
def SimpleExpr.muSum : List (SimpleExpr T) → Nat
  | [] => 0
  | e :: es => e.mu + SimpleExpr.muSum es
end

mutual
def SimpleExpr.evalS (σ : T → Bool) : SimpleExpr T → Bool
  | .not e => !(e.evalS σ)
  | .and es => SimpleExpr.evalAll σ es
  | .or es => SimpleExpr.evalAny σ es
  | .terminal t => σ t
def SimpleExpr.evalAll (σ : T → Bool) : List (SimpleExpr T) → Bool
  | [] => true
  | e :: es => e.evalS σ && SimpleExpr.evalAll σ es
def SimpleExpr.evalAny (σ : T → Bool) : List (SimpleExpr T) → Bool
  | [] => false
  | e :: es => e.evalS σ || SimpleExpr.evalAny σ es
end

mutual
def SimpleExpr.isNF : SimpleExpr T → Bool
  | .terminal _ => true
  | .not (.terminal _) => true
  | .not _ => false
  | .and es => SimpleExpr.nfAndList es
  | .or es => SimpleExpr.nfOrList es
def SimpleExpr.nfAndList : List (SimpleExpr T) → Bool
  | [] => true
  | e :: es => (e.isNF && !e.isAnd && !e.isOr) && SimpleExpr.nfAndList es
def SimpleExpr.nfOrList : List (SimpleExpr T) → Bool
  | [] => true
  | e :: es => (e.isNF && !e.isOr) && SimpleExpr.nfOrList es
end

def runSimplify : Nat → SimpleExpr T → Option (SimpleExpr T)
  | fuel, e =>
    match SimpleExpr.simplify e with
    | (e', false) => some e'
    | (e', true) =>
      match fuel with
      | 0 => none
      | n + 1 => runSimplify n e'

def simplifyFix (e : SimpleExpr T) : SimpleExpr T :=
  (runSimplify e.mu e).getD e

theorem perm_all {α : Type} {l l' : List α} (f : α → Bool) (h : l.Perm l') :
    l.all f = l'.all f := by
  cases hb : l'.all f with
  | true =>
    rw [List.all_eq_true] at hb ⊢
    exact fun x hx => hb x (h.mem_iff.mp hx)
  | false =>
    rw [List.all_eq_false] at hb ⊢
    obtain ⟨x, hx, hfx⟩ := hb
    exact ⟨x, h.mem_iff.mpr hx, hfx⟩

theorem perm_any {α : Type} {l l' : List α} (f : α → Bool) (h : l.Perm l') :
    l.any f = l'.any f := by
  cases hb : l'.any f with
  | true =>
    rw [List.any_eq_true] at hb ⊢
    obtain ⟨x, hx, hfx⟩ := hb
    exact ⟨x, h.mem_iff.mpr hx, hfx⟩
  | false =>
    rw [List.any_eq_false] at hb ⊢
    exact fun x hx => hb x (h.mem_iff.mp hx)

/-- `swap_remove i` produces, up to order, the list with the element at `i`
removed. -/
theorem swapRemove_perm {α : Type} {l : List α} {i : Nat} (h : i < l.length) :
    (swapRemove l i).Perm (l.eraseIdx i) := by
  have hne : l ≠ [] := by
    intro he
    subst he
    simp at h
  obtain ⟨ys, x, rfl⟩ : ∃ ys x, l = ys ++ [x] :=
    ⟨l.dropLast, l.getLast hne, (List.dropLast_append_getLast hne).symm⟩
  have hlast : (ys ++ [x]).getLast? = some x := by simp
  rw [swapRemove, hlast]
  dsimp only
  simp only [List.length_append, List.length_singleton] at h
  by_cases hi : i < ys.length
  · rw [List.set_append_left _ _ hi, List.dropLast_concat,
      List.eraseIdx_append_of_lt_length hi]
    rw [List.set_eq_take_cons_drop _ hi, List.eraseIdx_eq_take_drop_succ]
    refine (List.Perm.append_left (ys.take i)
      ((List.perm_append_singleton x (ys.drop (i + 1))).symm)).trans ?_
    rw [List.append_assoc]
  · have hieq : i = ys.length := by omega
    subst hieq
    rw [List.set_append_right _ _ (le_refl _)]
    simp only [Nat.sub_self, List.set]
    rw [List.dropLast_concat, List.eraseIdx_append_of_length_le (le_refl _)]
    simp

theorem muProd_eq_prod (l : List (SimpleExpr T)) :
    SimpleExpr.muProd l = (l.map SimpleExpr.mu).prod := by
  induction l with
  | nil => simp [SimpleExpr.muProd]
  | cons e es ih => simp [SimpleExpr.muProd, ih]

theorem muSum_eq_sum (l : List (SimpleExpr T)) :
    SimpleExpr.muSum l = (l.map SimpleExpr.mu).sum := by
  induction l with
  | nil => simp [SimpleExpr.muSum]
  | cons e es ih => simp [SimpleExpr.muSum, ih]

theorem muProd_perm {l l' : List (SimpleExpr T)} (h : l.Perm l') :
    SimpleExpr.muProd l = SimpleExpr.muProd l' := by
  rw [muProd_eq_prod, muProd_eq_prod]
  exact (h.map SimpleExpr.mu).prod_eq

theorem muSum_perm {l l' : List (SimpleExpr T)} (h : l.Perm l') :
    SimpleExpr.muSum l = SimpleExpr.muSum l' := by
  rw [muSum_eq_sum, muSum_eq_sum]
  exact (h.map SimpleExpr.mu).sum_eq

theorem muProd_append (a b : List (SimpleExpr T)) :
    SimpleExpr.muProd (a ++ b) = SimpleExpr.muProd a * SimpleExpr.muProd b := by
  induction a with
  | nil => simp [SimpleExpr.muProd]
  | cons e es ih => simp [SimpleExpr.muProd, ih]; ring

theorem muSum_append (a b : List (SimpleExpr T)) :
    SimpleExpr.muSum (a ++ b) = SimpleExpr.muSum a + SimpleExpr.muSum b := by
  induction a with
  | nil => simp [SimpleExpr.muSum]
  | cons e es ih => simp [SimpleExpr.muSum, ih]; ring

/-- Decompose a list at a valid index. -/
theorem list_decomp {α : Type} {l : List α} {i : Nat} {x : α} (h : l[i]? = some x) :
    l = l.take i ++ x :: l.drop (i + 1) := by
  have hlen : i < l.length := by
    by_contra hc
    rw [List.getElem?_eq_none (by omega)] at h
    exact Option.noConfusion h
  have hx : l[i] = x := by
    have := List.getElem?_eq_getElem hlen
    rw [this] at h
    exact Option.some.inj h
  conv_lhs => rw [← List.take_append_drop i l]
  rw [List.drop_eq_getElem_cons hlen, hx]

theorem eraseIdx_decomp {α : Type} {l : List α} {i : Nat} {x : α} (h : l[i]? = some x) :
    l.Perm (x :: l.eraseIdx i) := by
  rw [List.eraseIdx_eq_take_drop_succ]
  conv_lhs => rw [list_decomp h]
  exact List.perm_middle

theorem muProd_eraseIdx {es : List (SimpleExpr T)} {i : Nat} {x : SimpleExpr T}
    (h : es[i]? = some x) :
    SimpleExpr.muProd es = x.mu * SimpleExpr.muProd (es.eraseIdx i) := by
  rw [muProd_perm (eraseIdx_decomp h)]
  simp [SimpleExpr.muProd]

theorem muSum_eraseIdx {es : List (SimpleExpr T)} {i : Nat} {x : SimpleExpr T}
    (h : es[i]? = some x) :
    SimpleExpr.muSum es = x.mu + SimpleExpr.muSum (es.eraseIdx i) := by
  rw [muSum_perm (eraseIdx_decomp h)]
  simp [SimpleExpr.muSum]

theorem mu_pos_aux : ∀ (n : Nat) (e : SimpleExpr T), e.size ≤ n → 2 ≤ e.mu := by
  intro n
  induction n with
  | zero =>
    intro e he
    have := size_pos e
    omega
  | succ n ih =>
    intro e he
    cases e with
    | terminal t => simp [SimpleExpr.mu]
    | not x =>
      have hs : x.size ≤ n := by
        simp only [SimpleExpr.size] at he
        omega
      have h1 : 2 ≤ x.mu := ih x hs
      simp only [SimpleExpr.mu]
      calc 2 = 2 ^ 1 := rfl
        _ ≤ 2 ^ x.mu := Nat.pow_le_pow_right (by norm_num) (by omega)
    | and es =>
      simp only [SimpleExpr.mu]
      have hp : 0 < SimpleExpr.muProd es := by
        rw [muProd_eq_prod]
        apply List.prod_pos
        intro a ha
        simp only [List.mem_map] at ha
        obtain ⟨x, hx, rfl⟩ := ha
        have hs : x.size ≤ n := by
          have := size_le_sizeList_of_mem hx
          simp only [SimpleExpr.size] at he
          omega
        have := ih x hs
        omega
      omega
    | or es => simp [SimpleExpr.mu]

theorem mu_pos (e : SimpleExpr T) : 2 ≤ e.mu := mu_pos_aux e.size e (le_refl _)

theorem muProd_pos (l : List (SimpleExpr T)) : 1 ≤ SimpleExpr.muProd l := by
  rw [muProd_eq_prod]
  have : 0 < (l.map SimpleExpr.mu).prod := by
    apply List.prod_pos
    intro a ha
    simp only [List.mem_map] at ha
    obtain ⟨x, hx, rfl⟩ := ha
    have := mu_pos x
    omega
  omega

theorem evalAll_eq_all (σ : T → Bool) (l : List (SimpleExpr T)) :
    SimpleExpr.evalAll σ l = l.all (SimpleExpr.evalS σ) := by
  induction l with
  | nil => simp [SimpleExpr.evalAll]
  | cons e es ih => simp [SimpleExpr.evalAll, ih]

theorem evalAny_eq_any (σ : T → Bool) (l : List (SimpleExpr T)) :
    SimpleExpr.evalAny σ l = l.any (SimpleExpr.evalS σ) := by
  induction l with
  | nil => simp [SimpleExpr.evalAny]
  | cons e es ih => simp [SimpleExpr.evalAny, ih]

theorem evalAll_perm (σ : T → Bool) {l l' : List (SimpleExpr T)} (h : l.Perm l') :
    SimpleExpr.evalAll σ l = SimpleExpr.evalAll σ l' := by
  rw [evalAll_eq_all, evalAll_eq_all]
  exact perm_all _ h

theorem evalAny_perm (σ : T → Bool) {l l' : List (SimpleExpr T)} (h : l.Perm l') :
    SimpleExpr.evalAny σ l = SimpleExpr.evalAny σ l' := by
  rw [evalAny_eq_any, evalAny_eq_any]
  exact perm_any _ h

theorem evalAll_append (σ : T → Bool) (a b : List (SimpleExpr T)) :
    SimpleExpr.evalAll σ (a ++ b) = (SimpleExpr.evalAll σ a && SimpleExpr.evalAll σ b) := by
  simp [evalAll_eq_all]

theorem evalAny_append (σ : T → Bool) (a b : List (SimpleExpr T)) :
    SimpleExpr.evalAny σ (a ++ b) = (SimpleExpr.evalAny σ a || SimpleExpr.evalAny σ b) := by
  simp [evalAny_eq_any]

theorem flattenLoop_changed_mono {isv : SimpleExpr T → Bool}
    (vec : List (SimpleExpr T)) (index unchecked : Nat) (changed : Bool) :
    changed = true → (flattenLoop isv vec index unchecked changed).2 = true := by
  induction vec, index, unchecked, changed using flattenLoop.induct isv with
  | case1 vec index unchecked changed h hnone =>
    intro hc
    rw [flattenLoop]
    simp [h, hnone, hc]
  | case2 vec index unchecked changed h e he hv ih =>
    intro _
    rw [flattenLoop]
    simp only [h, if_true, he, hv]
    exact ih rfl
  | case3 vec index unchecked changed h e he hv ih =>
    intro hc
    rw [flattenLoop]
    simp only [h, if_true, he, hv, if_false, Bool.false_eq_true]
    exact ih hc
  | case4 vec index unchecked changed h =>
    intro hc
    rw [flattenLoop]
    simp [h, hc]

theorem getElem?_some_lt {α : Type} {l : List α} {i : Nat} {x : α}
    (h : l[i]? = some x) : i < l.length := by
  by_contra hc
  rw [List.getElem?_eq_none (by omega)] at h
  exact Option.noConfusion h

theorem evalAll_eraseIdx (σ : T → Bool) {es : List (SimpleExpr T)} {i : Nat}
    {x : SimpleExpr T} (h : es[i]? = some x) :
    SimpleExpr.evalAll σ es = (x.evalS σ && SimpleExpr.evalAll σ (es.eraseIdx i)) := by
  rw [evalAll_perm σ (eraseIdx_decomp h)]
  simp [SimpleExpr.evalAll]

theorem evalAny_eraseIdx (σ : T → Bool) {es : List (SimpleExpr T)} {i : Nat}
    {x : SimpleExpr T} (h : es[i]? = some x) :
    SimpleExpr.evalAny σ es = (x.evalS σ || SimpleExpr.evalAny σ (es.eraseIdx i)) := by
  rw [evalAny_perm σ (eraseIdx_decomp h)]
  simp [SimpleExpr.evalAny]

theorem flattenLoop_unchanged {isv : SimpleExpr T → Bool}
    (vec : List (SimpleExpr T)) (index unchecked : Nat) (changed : Bool) :
    (flattenLoop isv vec index unchecked changed).2 = false →
      (flattenLoop isv vec index unchecked changed).1 = vec ∧ changed = false := by
  induction vec, index, unchecked, changed using flattenLoop.induct isv with
  | case1 vec index unchecked changed h hnone =>
    rw [flattenLoop]
    simp [h, hnone]
  | case2 vec index unchecked changed h e he hv ih =>
    rw [flattenLoop]
    simp only [h, if_true, he, hv]
    intro hfalse
    have hmono := @flattenLoop_changed_mono _ isv
      (swapRemove vec index ++ e.innerVec) index (unchecked - 1) true rfl
    rw [hmono] at hfalse
    exact Bool.noConfusion hfalse
  | case3 vec index unchecked changed h e he hv ih =>
    rw [flattenLoop]
    simp only [h, if_true, he, hv, if_false, Bool.false_eq_true]
    exact ih
  | case4 vec index unchecked changed h =>
    rw [flattenLoop]
    simp [h]

theorem flattenLoop_no_variant {isv : SimpleExpr T → Bool}
    (vec : List (SimpleExpr T)) (index unchecked : Nat) (changed : Bool) :
    (flattenLoop isv vec index unchecked changed).2 = false →
      ∀ j x, index ≤ j → j < unchecked → vec[j]? = some x → isv x = false := by
  induction vec, index, unchecked, changed using flattenLoop.induct isv with
  | case1 vec index unchecked changed h hnone =>
    intro _ j x hij hju hjx
    by_contra hcon
    have hjlen : j < vec.length := getElem?_some_lt hjx
    have hidx : index < vec.length := by omega
    rw [List.getElem?_eq_getElem hidx] at hnone
    exact Option.noConfusion hnone
  | case2 vec index unchecked changed h e he hv ih =>
    rw [flattenLoop]
    simp only [h, if_true, he, hv]
    intro hfalse
    have hmono := @flattenLoop_changed_mono _ isv
      (swapRemove vec index ++ e.innerVec) index (unchecked - 1) true rfl
    rw [hmono] at hfalse
    exact Bool.noConfusion hfalse
  | case3 vec index unchecked changed h e he hv ih =>
    rw [flattenLoop]
    simp only [h, if_true, he, hv, if_false, Bool.false_eq_true]
    intro hfalse j x hij hju hjx
    rcases Nat.eq_or_lt_of_le hij with rfl | hlt
    · rw [he] at hjx
      cases hjx
      simpa using hv
    · exact ih hfalse j x hlt hju hjx
  | case4 vec index unchecked changed h =>
    intro _ j x hij hju hjx
    omega

theorem flattenLoop_muProd {isv : SimpleExpr T → Bool}
    (hv : ∀ e : SimpleExpr T, isv e = true → e.mu = 2 * SimpleExpr.muProd e.innerVec)
    (vec : List (SimpleExpr T)) (index unchecked : Nat) (changed : Bool) :
    SimpleExpr.muProd (flattenLoop isv vec index unchecked changed).1
        ≤ SimpleExpr.muProd vec ∧
      (changed = false → (flattenLoop isv vec index unchecked changed).2 = true →
        2 * SimpleExpr.muProd (flattenLoop isv vec index unchecked changed).1
          ≤ SimpleExpr.muProd vec) := by
  induction vec, index, unchecked, changed using flattenLoop.induct isv with
  | case1 vec index unchecked changed h hnone =>
    rw [flattenLoop]
    simp only [h, if_true, hnone]
    refine ⟨le_refl _, fun h1 h2 => ?_⟩
    rw [h1] at h2
    exact Bool.noConfusion h2
  | case2 vec index unchecked changed h e he hv2 ih =>
    have hlen : index < vec.length := getElem?_some_lt he
    have key : SimpleExpr.muProd vec
        = 2 * SimpleExpr.muProd (swapRemove vec index ++ e.innerVec) := by
      rw [muProd_append, muProd_perm (swapRemove_perm hlen), muProd_eraseIdx he,
        hv e hv2]
      ring
    rw [flattenLoop]
    simp only [h, if_true, he, hv2]
    have h1 := ih.1
    exact ⟨by omega, fun _ _ => by omega⟩
  | case3 vec index unchecked changed h e he hv2 ih =>
    rw [flattenLoop]
    simp only [h, if_true, he, hv2, if_false, Bool.false_eq_true]
    exact ih
  | case4 vec index unchecked changed h =>
    rw [flattenLoop]
    simp only [h, if_false]
    refine ⟨le_refl _, fun h1 h2 => ?_⟩
    rw [h1] at h2
    exact Bool.noConfusion h2

theorem flattenLoop_muSum {isv : SimpleExpr T → Bool}
    (hv : ∀ e : SimpleExpr T, isv e = true → e.mu = 2 + SimpleExpr.muSum e.innerVec)
    (vec : List (SimpleExpr T)) (index unchecked : Nat) (changed : Bool) :
    SimpleExpr.muSum (flattenLoop isv vec index unchecked changed).1
        ≤ SimpleExpr.muSum vec ∧
      (changed = false → (flattenLoop isv vec index unchecked changed).2 = true →
        SimpleExpr.muSum (flattenLoop isv vec index unchecked changed).1 + 2
          ≤ SimpleExpr.muSum vec) := by
  induction vec, index, unchecked, changed using flattenLoop.induct isv with
  | case1 vec index unchecked changed h hnone =>
    rw [flattenLoop]
    simp [h, hnone]
  | case2 vec index unchecked changed h e he hv2 ih =>
    have hlen : index < vec.length := getElem?_some_lt he
    have key : SimpleExpr.muSum vec
        = SimpleExpr.muSum (swapRemove vec index ++ e.innerVec) + 2 := by
      rw [muSum_append, muSum_perm (swapRemove_perm hlen), muSum_eraseIdx he, hv e hv2]
      ring
    rw [flattenLoop]
    simp only [h, if_true, he, hv2]
    have h1 := ih.1
    constructor
    · omega
    · intro _ _
      omega
  | case3 vec index unchecked changed h e he hv2 ih =>
    rw [flattenLoop]
    simp only [h, if_true, he, hv2, if_false, Bool.false_eq_true]
    exact ih
  | case4 vec index unchecked changed h =>
    rw [flattenLoop]
    simp [h]

theorem flattenLoop_evalAll (σ : T → Bool) {isv : SimpleExpr T → Bool}
    (hv : ∀ e : SimpleExpr T, isv e = true →
      SimpleExpr.evalAll σ e.innerVec = e.evalS σ)
    (vec : List (SimpleExpr T)) (index unchecked : Nat) (changed : Bool) :
    SimpleExpr.evalAll σ (flattenLoop isv vec index unchecked changed).1
      = SimpleExpr.evalAll σ vec := by
  induction vec, index, unchecked, changed using flattenLoop.induct isv with
  | case1 vec index unchecked changed h hnone =>
    rw [flattenLoop]
    simp [h, hnone]
  | case2 vec index unchecked changed h e he hv2 ih =>
    have hlen : index < vec.length := getElem?_some_lt he
    have key : SimpleExpr.evalAll σ (swapRemove vec index ++ e.innerVec)
        = SimpleExpr.evalAll σ vec := by
      rw [evalAll_append, evalAll_perm σ (swapRemove_perm hlen), evalAll_eraseIdx σ he,
        hv e hv2]
      rw [Bool.and_comm]
    rw [flattenLoop]
    simp only [h, if_true, he, hv2]
    rw [ih, key]
  | case3 vec index unchecked changed h e he hv2 ih =>
    rw [flattenLoop]
    simp only [h, if_true, he, hv2, if_false, Bool.false_eq_true]
    exact ih
  | case4 vec index unchecked changed h =>
    rw [flattenLoop]
    simp [h]

theorem flattenLoop_evalAny (σ : T → Bool) {isv : SimpleExpr T → Bool}
    (hv : ∀ e : SimpleExpr T, isv e = true →
      SimpleExpr.evalAny σ e.innerVec = e.evalS σ)
    (vec : List (SimpleExpr T)) (index unchecked : Nat) (changed : Bool) :
    SimpleExpr.evalAny σ (flattenLoop isv vec index unchecked changed).1
      = SimpleExpr.evalAny σ vec := by
  induction vec, index, unchecked, changed using flattenLoop.induct isv with
  | case1 vec index unchecked changed h hnone =>
    rw [flattenLoop]
    simp [h, hnone]
  | case2 vec index unchecked changed h e he hv2 ih =>
    have hlen : index < vec.length := getElem?_some_lt he
    have key : SimpleExpr.evalAny σ (swapRemove vec index ++ e.innerVec)
        = SimpleExpr.evalAny σ vec := by
      rw [evalAny_append, evalAny_perm σ (swapRemove_perm hlen), evalAny_eraseIdx σ he,
        hv e hv2]
      rw [Bool.or_comm]
    rw [flattenLoop]
    simp only [h, if_true, he, hv2]
    rw [ih, key]
  | case3 vec index unchecked changed h e he hv2 ih =>
    rw [flattenLoop]
    simp only [h, if_true, he, hv2, if_false, Bool.false_eq_true]
    exact ih
  | case4 vec index unchecked changed h =>
    rw [flattenLoop]
    simp [h]

theorem isAnd_mu {e : SimpleExpr T} (h : e.isAnd = true) :
    e.mu = 2 * SimpleExpr.muProd e.innerVec := by
  cases e <;> simp [SimpleExpr.isAnd] at h <;> simp [SimpleExpr.mu, SimpleExpr.innerVec]

theorem isOr_mu {e : SimpleExpr T} (h : e.isOr = true) :
    e.mu = 2 + SimpleExpr.muSum e.innerVec := by
  cases e <;> simp [SimpleExpr.isOr] at h <;> simp [SimpleExpr.mu, SimpleExpr.innerVec]

theorem isAnd_evalAll (σ : T → Bool) {e : SimpleExpr T} (h : e.isAnd = true) :
    SimpleExpr.evalAll σ e.innerVec = e.evalS σ := by
  cases e <;> simp [SimpleExpr.isAnd] at h <;>
    simp [SimpleExpr.evalS, SimpleExpr.innerVec]

theorem isOr_evalAny (σ : T → Bool) {e : SimpleExpr T} (h : e.isOr = true) :
    SimpleExpr.evalAny σ e.innerVec = e.evalS σ := by
  cases e <;> simp [SimpleExpr.isOr] at h <;>
    simp [SimpleExpr.evalS, SimpleExpr.innerVec]

theorem lt_two_pow_two_pow (m : Nat) : m < 2 ^ 2 ^ m :=
  lt_of_lt_of_le (Nat.lt_two_pow m)
    (Nat.pow_le_pow_right (by norm_num) (le_of_lt (Nat.lt_two_pow m)))

theorem flatten_mu_le (e : SimpleExpr T) : (e.flatten).1.mu ≤ e.mu := by
  cases e with
  | not inner =>
    cases inner with
    | not x =>
      simp only [SimpleExpr.flatten, SimpleExpr.mu]
      exact le_of_lt (lt_of_lt_of_le (lt_two_pow_two_pow x.mu)
        (Nat.pow_le_pow_right (by norm_num)
          (Nat.pow_le_pow_right (by norm_num) (le_refl _))))
    | and vs => simp [SimpleExpr.flatten]
    | or vs => simp [SimpleExpr.flatten]
    | terminal t => simp [SimpleExpr.flatten]
  | and es =>
    simp only [SimpleExpr.flatten, SimpleExpr.mu]
    have := (flattenLoop_muProd (fun e h => isAnd_mu h) es 0 es.length false).1
    omega
  | or es =>
    simp only [SimpleExpr.flatten, SimpleExpr.mu]
    have := (flattenLoop_muSum (fun e h => isOr_mu h) es 0 es.length false).1
    omega
  | terminal t => simp [SimpleExpr.flatten]

theorem flatten_mu_lt (e : SimpleExpr T) (h : (e.flatten).2 = true) :
    (e.flatten).1.mu < e.mu := by
  cases e with
  | not inner =>
    cases inner with
    | not x =>
      simp only [SimpleExpr.flatten, SimpleExpr.mu]
      exact lt_of_lt_of_le (lt_two_pow_two_pow x.mu)
        (Nat.pow_le_pow_right (by norm_num)
          (Nat.pow_le_pow_right (by norm_num) (le_refl _)))
    | and vs => simp [SimpleExpr.flatten] at h
    | or vs => simp [SimpleExpr.flatten] at h
    | terminal t => simp [SimpleExpr.flatten] at h
  | and es =>
    simp only [SimpleExpr.flatten] at h ⊢
    simp only [SimpleExpr.mu]
    have h2 := (flattenLoop_muProd (fun e h => isAnd_mu h) es 0 es.length false).2 rfl h
    have h3 := muProd_pos (flattenLoop SimpleExpr.isAnd es 0 es.length false).1
    omega
  | or es =>
    simp only [SimpleExpr.flatten] at h ⊢
    simp only [SimpleExpr.mu]
    have h2 := (flattenLoop_muSum (fun e h => isOr_mu h) es 0 es.length false).2 rfl h
    omega
  | terminal t => simp [SimpleExpr.flatten] at h

theorem flatten_unchanged (e : SimpleExpr T) (h : (e.flatten).2 = false) :
    (e.flatten).1 = e := by
  cases e with
  | not inner =>
    cases inner with
    | not x => simp [SimpleExpr.flatten] at h
    | and vs => simp [SimpleExpr.flatten]
    | or vs => simp [SimpleExpr.flatten]
    | terminal t => simp [SimpleExpr.flatten]
  | and es =>
    simp only [SimpleExpr.flatten] at h ⊢
    rw [(flattenLoop_unchanged es 0 es.length false h).1]
  | or es =>
    simp only [SimpleExpr.flatten] at h ⊢
    rw [(flattenLoop_unchanged es 0 es.length false h).1]
  | terminal t => simp [SimpleExpr.flatten]

theorem flatten_eval (σ : T → Bool) (e : SimpleExpr T) :
    (e.flatten).1.evalS σ = e.evalS σ := by
  cases e with
  | not inner =>
    cases inner with
    | not x => simp [SimpleExpr.flatten, SimpleExpr.evalS]
    | and vs => simp [SimpleExpr.flatten]
    | or vs => simp [SimpleExpr.flatten]
    | terminal t => simp [SimpleExpr.flatten]
  | and es =>
    simp only [SimpleExpr.flatten, SimpleExpr.evalS]
    exact flattenLoop_evalAll σ (fun e h => isAnd_evalAll σ h) es 0 es.length false
  | or es =>
    simp only [SimpleExpr.flatten, SimpleExpr.evalS]
    exact flattenLoop_evalAny σ (fun e h => isOr_evalAny σ h) es 0 es.length false
  | terminal t => simp [SimpleExpr.flatten]

theorem lastOrIdx_some {es : List (SimpleExpr T)} {i : Nat}
    (h : lastOrIdx es = some i) : ∃ ws, es[i]? = some (SimpleExpr.or ws) := by
  unfold lastOrIdx at h
  cases hf : (es.enum.reverse.find? (fun p => p.2.isOr)) with
  | none => rw [hf] at h; exact Option.noConfusion h
  | some p =>
    rw [hf] at h
    have hpi : p.1 = i := by simpa using h
    have hp : p.2.isOr = true := by
      have := List.find?_some hf
      simpa using this
    have hmem : p ∈ es.enum := List.mem_reverse.mp (List.mem_of_find?_eq_some hf)
    have hget : es[p.1]? = some p.2 := by
      have := List.mk_mem_enum_iff_getElem? (l := es) (i := p.1) (x := p.2)
      exact this.mp (by simpa using hmem)
    cases hsnd : p.2 with
    | or ws => exact ⟨ws, by rw [← hpi, ← hsnd]; exact hget⟩
    | not x => rw [hsnd] at hp; simp [SimpleExpr.isOr] at hp
    | and ws => rw [hsnd] at hp; simp [SimpleExpr.isOr] at hp
    | terminal t => rw [hsnd] at hp; simp [SimpleExpr.isOr] at hp

theorem lastOrIdx_none {es : List (SimpleExpr T)} (h : lastOrIdx es = none) :
    ∀ v ∈ es, v.isOr = false := by
  intro v hv
  unfold lastOrIdx at h
  cases hf : (es.enum.reverse.find? (fun p => p.2.isOr)) with
  | some p => rw [hf] at h; simp at h
  | none =>
    rw [List.find?_eq_none] at hf
    obtain ⟨i, hi⟩ := List.mem_iff_getElem?.mp hv
    have hmem : (i, v) ∈ es.enum.reverse :=
      List.mem_reverse.mpr ((List.mk_mem_enum_iff_getElem? (l := es)).mpr hi)
    exact Bool.eq_false_iff.mpr (hf _ hmem)

theorem nfAndList_eq_all (l : List (SimpleExpr T)) :
    SimpleExpr.nfAndList l = l.all (fun e => e.isNF && !e.isAnd && !e.isOr) := by
  induction l with
  | nil => simp [SimpleExpr.nfAndList]
  | cons e es ih => simp [SimpleExpr.nfAndList, ih]

theorem nfOrList_eq_all (l : List (SimpleExpr T)) :
    SimpleExpr.nfOrList l = l.all (fun e => e.isNF && !e.isOr) := by
  induction l with
  | nil => simp [SimpleExpr.nfOrList]
  | cons e es ih => simp [SimpleExpr.nfOrList, ih]

theorem muSum_map_le {l : List (SimpleExpr T)} {F : SimpleExpr T → SimpleExpr T}
    {G : SimpleExpr T → Nat} (h : ∀ v ∈ l, (F v).mu ≤ G v) :
    SimpleExpr.muSum (l.map F) ≤ (l.map G).sum := by
  induction l with
  | nil => simp [SimpleExpr.muSum]
  | cons e es ih =>
    simp only [List.map_cons, SimpleExpr.muSum, List.sum_cons]
    have h1 := h e (by simp)
    have h2 := ih (fun v hv => h v (List.mem_cons_of_mem _ hv))
    omega

theorem muProd_map_le {l : List (SimpleExpr T)} {F : SimpleExpr T → SimpleExpr T}
    {G : SimpleExpr T → Nat} (h : ∀ v ∈ l, (F v).mu ≤ G v) :
    SimpleExpr.muProd (l.map F) ≤ (l.map G).prod := by
  induction l with
  | nil => simp [SimpleExpr.muProd]
  | cons e es ih =>
    simp only [List.map_cons, SimpleExpr.muProd, List.prod_cons]
    have h1 := h e (by simp)
    have h2 := ih (fun v hv => h v (List.mem_cons_of_mem _ hv))
    exact Nat.mul_le_mul h1 h2

theorem muSum_map_lt {l : List (SimpleExpr T)} {F : SimpleExpr T → SimpleExpr T}
    (hle : ∀ v ∈ l, (F v).mu ≤ v.mu) {w : SimpleExpr T} (hw : w ∈ l)
    (hlt : (F w).mu < w.mu) :
    SimpleExpr.muSum (l.map F) < SimpleExpr.muSum l := by
  induction l with
  | nil => simp at hw
  | cons e es ih =>
    simp only [List.map_cons, SimpleExpr.muSum]
    rcases List.mem_cons.mp hw with rfl | hmem
    · have h2 : SimpleExpr.muSum (es.map F) ≤ SimpleExpr.muSum es := by
        have := muSum_map_le (G := SimpleExpr.mu)
          (fun v hv => hle v (List.mem_cons_of_mem _ hv))
        rwa [← muSum_eq_sum es] at this
      omega
    · have h1 := hle e (List.mem_cons_self _ _)
      have h2 := ih (fun v hv => hle v (List.mem_cons_of_mem _ hv)) hmem
      omega

theorem muProd_map_lt {l : List (SimpleExpr T)} {F : SimpleExpr T → SimpleExpr T}
    (hle : ∀ v ∈ l, (F v).mu ≤ v.mu) {w : SimpleExpr T} (hw : w ∈ l)
    (hlt : (F w).mu < w.mu) :
    SimpleExpr.muProd (l.map F) < SimpleExpr.muProd l := by
  induction l with
  | nil => simp at hw
  | cons e es ih =>
    simp only [List.map_cons, SimpleExpr.muProd]
    rcases List.mem_cons.mp hw with rfl | hmem
    · have h2 : SimpleExpr.muProd (es.map F) ≤ SimpleExpr.muProd es := by
        have := muProd_map_le (G := SimpleExpr.mu)
          (fun v hv => hle v (List.mem_cons_of_mem _ hv))
        rwa [← muProd_eq_prod es] at this
      have h5 := muProd_pos es
      calc (F w).mu * SimpleExpr.muProd (es.map F)
          ≤ (F w).mu * SimpleExpr.muProd es := Nat.mul_le_mul_left _ h2
        _ < w.mu * SimpleExpr.muProd es :=
          (Nat.mul_lt_mul_right (by omega)).mpr hlt
    · have h1 := hle e (List.mem_cons_self _ _)
      have h2 := ih (fun v hv => hle v (List.mem_cons_of_mem _ hv)) hmem
      have h3 := mu_pos e
      calc (F e).mu * SimpleExpr.muProd (es.map F)
          ≤ e.mu * SimpleExpr.muProd (es.map F) := Nat.mul_le_mul_right _ h1
        _ < e.mu * SimpleExpr.muProd es :=
          (Nat.mul_lt_mul_left (by omega)).mpr h2

theorem two_pow_add_two_pow_le {a b : Nat} (ha : 1 ≤ a) (hb : 1 ≤ b) :
    2 ^ a + 2 ^ b ≤ 2 ^ (a + b) := by
  rcases Nat.le_total a b with hab | hab
  · have h1 : 2 ^ a ≤ 2 ^ b := Nat.pow_le_pow_right (by norm_num) hab
    have h2 : 2 ^ b + 2 ^ b = 2 ^ (b + 1) := by ring
    have h3 : 2 ^ (b + 1) ≤ 2 ^ (a + b) := Nat.pow_le_pow_right (by norm_num) (by omega)
    omega
  · have h1 : 2 ^ b ≤ 2 ^ a := Nat.pow_le_pow_right (by norm_num) hab
    have h2 : 2 ^ a + 2 ^ a = 2 ^ (a + 1) := by ring
    have h3 : 2 ^ (a + 1) ≤ 2 ^ (a + b) := Nat.pow_le_pow_right (by norm_num) (by omega)
    omega

theorem sum_two_pow_le (l : List Nat) (h : ∀ m ∈ l, 1 ≤ m) :
    (l.map (fun m => 2 ^ m)).sum ≤ 2 ^ l.sum := by
  induction l with
  | nil => simp
  | cons a as ih =>
    simp only [List.map_cons, List.sum_cons]
    cases as with
    | nil => simp
    | cons b bs =>
      have h1 := ih (fun m hm => h m (List.mem_cons_of_mem _ hm))
      have h2 : 1 ≤ (b :: bs).sum := by
        have := h b (by simp)
        simp only [List.sum_cons]
        omega
      have h3 := h a (by simp)
      have h4 := two_pow_add_two_pow_le h3 h2
      omega

theorem sum_le_prod (l : List Nat) (h : ∀ m ∈ l, 2 ≤ m) : l.sum ≤ l.prod := by
  induction l with
  | nil => simp
  | cons a as ih =>
    simp only [List.sum_cons, List.prod_cons]
    cases as with
    | nil => simp
    | cons b bs =>
      have h1 := ih (fun m hm => h m (List.mem_cons_of_mem _ hm))
      have h2 : 2 ≤ (b :: bs).sum := by
        have := h b (by simp)
        simp only [List.sum_cons]
        omega
      have h3 := h a (by simp)
      have h4 : a + (b :: bs).sum ≤ a * (b :: bs).sum := Nat.add_le_mul h3 h2
      have h5 : a * (b :: bs).sum ≤ a * (b :: bs).prod := Nat.mul_le_mul_left _ h1
      omega

theorem prod_two_pow (l : List Nat) : (l.map (fun m => 2 ^ m)).prod = 2 ^ l.sum := by
  induction l with
  | nil => simp
  | cons a as ih =>
    simp only [List.map_cons, List.prod_cons, List.sum_cons, ih]
    rw [Nat.pow_add]

theorem list_all_congr {α : Type} {l : List α} {f g : α → Bool}
    (h : ∀ x ∈ l, f x = g x) : l.all f = l.all g := by
  induction l with
  | nil => rfl
  | cons a as ih =>
    simp only [List.all_cons, h a (by simp),
      ih (fun x hx => h x (List.mem_cons_of_mem _ hx))]

theorem list_any_congr {α : Type} {l : List α} {f g : α → Bool}
    (h : ∀ x ∈ l, f x = g x) : l.any f = l.any g := by
  induction l with
  | nil => rfl
  | cons a as ih =>
    simp only [List.any_cons, h a (by simp),
      ih (fun x hx => h x (List.mem_cons_of_mem _ hx))]

theorem any_not_eq_not_all {α : Type} (l : List α) (f : α → Bool) :
    l.any (fun x => !f x) = !l.all f := by
  induction l with
  | nil => rfl
  | cons a as ih => simp [ih]

theorem all_not_eq_not_any {α : Type} (l : List α) (f : α → Bool) :
    l.all (fun x => !f x) = !l.any f := by
  induction l with
  | nil => rfl
  | cons a as ih => simp [ih]

theorem any_and_left {α : Type} (l : List α) (a : Bool) (f : α → Bool) :
    l.any (fun x => a && f x) = (a && l.any f) := by
  induction l with
  | nil => simp
  | cons x xs ih => simp [ih, Bool.and_or_distrib_left]

theorem evalAll_map_eq_all (σ : T → Bool) (l : List (SimpleExpr T))
    (F : SimpleExpr T → SimpleExpr T) :
    SimpleExpr.evalAll σ (l.map F) = l.all (fun v => (F v).evalS σ) := by
  rw [evalAll_eq_all, List.all_map]
  rfl

theorem evalAny_map_eq_any (σ : T → Bool) (l : List (SimpleExpr T))
    (F : SimpleExpr T → SimpleExpr T) :
    SimpleExpr.evalAny σ (l.map F) = l.any (fun v => (F v).evalS σ) := by
  rw [evalAny_eq_any, List.any_map]
  rfl

theorem SimpleExpr.simplify_and_distribute (es : List (SimpleExpr T)) (i : Nat)
    (hlast : lastOrIdx es = some i) (ws : List (SimpleExpr T))
    (hws : es[i]? = some (SimpleExpr.or ws)) :
    SimpleExpr.simplify (SimpleExpr.and es)
      = ((SimpleExpr.flatten (SimpleExpr.or (ws.map
          (fun w => (SimpleExpr.simplify (SimpleExpr.and (es.eraseIdx i ++ [w]))).1)))).1, true) := by
  rw [SimpleExpr.simplify]
  split
  case _ i2 heq =>
    rw [hlast] at heq
    cases heq
    split
    case _ ws2 heq2 =>
      rw [hws] at heq2
      cases heq2
      dsimp only
      rw [List.attach_map_val ws (fun w => (SimpleExpr.simplify (SimpleExpr.and (es.eraseIdx i ++ [w]))).1)]
      simp
    case _ heq2 =>
      exact absurd hws (heq2 ws)
  case _ heq =>
    rw [hlast] at heq
    exact Option.noConfusion heq

theorem any_attach {α : Type} (l : List α) (p : α → Bool) :
    l.attach.any (fun x => p x.1) = l.any p := by
  cases h : l.any p with
  | false =>
    rw [List.any_eq_false] at h ⊢
    intro x _
    exact h x.1 x.2
  | true =>
    rw [List.any_eq_true] at h ⊢
    obtain ⟨a, ha, hpa⟩ := h
    exact ⟨⟨a, ha⟩, List.mem_attach _ _, hpa⟩

theorem map_fst_attach_simplify_pass (es : List (SimpleExpr T)) :
    (es.attach.map (fun v => SimpleExpr.simplify v.1)).map Prod.fst
      = es.map (fun v => (SimpleExpr.simplify v).1) := by
  rw [List.map_map]
  exact List.attach_map_val es (fun v => (SimpleExpr.simplify v).1)

theorem any_snd_attach_simplify_pass (es : List (SimpleExpr T)) :
    (es.attach.map (fun v => SimpleExpr.simplify v.1)).any Prod.snd
      = es.any (fun v => (SimpleExpr.simplify v).2) := by
  cases h : es.any (fun v => (SimpleExpr.simplify v).2) with
  | false =>
    rw [List.any_eq_false] at h ⊢
    intro x hx
    rw [List.mem_map] at hx
    obtain ⟨v, _, rfl⟩ := hx
    exact h v.1 v.2
  | true =>
    rw [List.any_eq_true] at h ⊢
    obtain ⟨a, ha, hpa⟩ := h
    exact ⟨SimpleExpr.simplify a, List.mem_map.mpr ⟨⟨a, ha⟩, List.mem_attach _ _, rfl⟩, hpa⟩

theorem SimpleExpr.simplify_not_not (x : SimpleExpr T) :
    SimpleExpr.simplify (SimpleExpr.not (SimpleExpr.not x)) = ((SimpleExpr.simplify x).1, true) := by
  rw [SimpleExpr.simplify]
  simp [SimpleExpr.flatten]

theorem SimpleExpr.simplify_not_and (vs : List (SimpleExpr T)) :
    SimpleExpr.simplify (SimpleExpr.not (SimpleExpr.and vs))
      = ((SimpleExpr.flatten (SimpleExpr.or
          (vs.map (fun v => (SimpleExpr.simplify (SimpleExpr.not v)).1)))).1, true) := by
  rw [SimpleExpr.simplify]
  rw [List.attach_map_val vs (fun v => (SimpleExpr.simplify (SimpleExpr.not v)).1)]
  simp

theorem SimpleExpr.simplify_not_or (vs : List (SimpleExpr T)) :
    SimpleExpr.simplify (SimpleExpr.not (SimpleExpr.or vs))
      = ((SimpleExpr.flatten (SimpleExpr.and
          (vs.map (fun v => (SimpleExpr.simplify (SimpleExpr.not v)).1)))).1, true) := by
  rw [SimpleExpr.simplify]
  rw [List.attach_map_val vs (fun v => (SimpleExpr.simplify (SimpleExpr.not v)).1)]
  simp

theorem SimpleExpr.simplify_not_terminal (t : T) :
    SimpleExpr.simplify (SimpleExpr.not (SimpleExpr.terminal t))
      = (SimpleExpr.not (SimpleExpr.terminal t), false) := by
  rw [SimpleExpr.simplify]
  simp [SimpleExpr.flatten]

theorem SimpleExpr.simplify_terminal (t : T) :
    SimpleExpr.simplify (SimpleExpr.terminal t) = (SimpleExpr.terminal t, false) := by
  rw [SimpleExpr.simplify]
  simp [SimpleExpr.flatten]

theorem SimpleExpr.simplify_and_noor (es : List (SimpleExpr T)) (hlast : lastOrIdx es = none) :
    SimpleExpr.simplify (SimpleExpr.and es)
      = ((SimpleExpr.flatten (SimpleExpr.and (es.map (fun v => (SimpleExpr.simplify v).1)))).1,
         (SimpleExpr.flatten (SimpleExpr.and (es.map (fun v => (SimpleExpr.simplify v).1)))).2
           || es.any (fun v => (SimpleExpr.simplify v).2)) := by
  rw [SimpleExpr.simplify]
  split
  case _ i2 heq =>
    rw [hlast] at heq
    exact Option.noConfusion heq
  case _ heq =>
    simp only [map_fst_attach_simplify_pass, any_snd_attach_simplify_pass]

theorem SimpleExpr.simplify_or (es : List (SimpleExpr T)) :
    SimpleExpr.simplify (SimpleExpr.or es)
      = ((SimpleExpr.flatten (SimpleExpr.or (es.map (fun v => (SimpleExpr.simplify v).1)))).1,
         (SimpleExpr.flatten (SimpleExpr.or (es.map (fun v => (SimpleExpr.simplify v).1)))).2
           || es.any (fun v => (SimpleExpr.simplify v).2)) := by
  rw [SimpleExpr.simplify]
  simp only [map_fst_attach_simplify_pass, any_snd_attach_simplify_pass]

theorem flattenLoop_nil {isv : SimpleExpr T → Bool} (c : Bool) :
    flattenLoop isv [] 0 0 c = ([], c) := by
  rw [flattenLoop]
  simp

theorem mu_or_nil : (SimpleExpr.or ([] : List (SimpleExpr T))).mu = 2 := by
  simp [SimpleExpr.mu, SimpleExpr.muSum]

theorem sum_map_const_mul (c : Nat) (l : List (SimpleExpr T)) :
    (l.map (fun w => c * w.mu)).sum = c * SimpleExpr.muSum l := by
  induction l with
  | nil => simp [SimpleExpr.muSum]
  | cons e es ih =>
    simp only [List.map_cons, List.sum_cons, SimpleExpr.muSum, ih]
    ring

set_option maxHeartbeats 1000000 in
theorem SimpleExpr.simplify_spec (e : SimpleExpr T) :
    (SimpleExpr.simplify e).1.mu ≤ e.mu ∧
    ((SimpleExpr.simplify e).2 = true → (SimpleExpr.simplify e).1.mu < e.mu) ∧
    ((SimpleExpr.simplify e).2 = false → (SimpleExpr.simplify e).1 = e) ∧
    (∀ σ : T → Bool, (SimpleExpr.simplify e).1.evalS σ = e.evalS σ) ∧
    ((SimpleExpr.simplify e).2 = false → e.isNF = true) := by
  induction e using SimpleExpr.simplify.induct with
  | case1 x ih =>
    obtain ⟨ih1, ih2, ih3, ih4, ih5⟩ := ih
    rw [SimpleExpr.simplify_not_not]
    dsimp only
    have hx := lt_two_pow_two_pow x.mu
    have hmu : (SimpleExpr.not (SimpleExpr.not x)).mu = 2 ^ 2 ^ x.mu := by
      simp [SimpleExpr.mu]
    refine ⟨?_, fun _ => ?_, fun hf => Bool.noConfusion hf, fun σ => ?_, fun hf =>
      Bool.noConfusion hf⟩
    · exact le_of_lt (by rw [hmu]; omega)
    · rw [hmu]; omega
    · simp only [SimpleExpr.evalS]
      rw [ih4 σ, Bool.not_not]
  | case2 vs ih =>
    rw [SimpleExpr.simplify_not_and]
    dsimp only
    have hle : ∀ v ∈ vs, ((fun v => (SimpleExpr.simplify (SimpleExpr.not v)).1) v).mu
        ≤ (fun v => 2 ^ v.mu) v := by
      intro v hv
      have := (ih ⟨v, hv⟩).1
      simpa [SimpleExpr.mu] using this
    have h1 := muSum_map_le hle
    have h2 : (vs.map (fun v => 2 ^ v.mu)).sum ≤ 2 ^ (vs.map SimpleExpr.mu).sum := by
      have hmm : vs.map (fun v => 2 ^ v.mu)
          = (vs.map SimpleExpr.mu).map (fun m => 2 ^ m) := by
        rw [List.map_map]
        rfl
      rw [hmm]
      apply sum_two_pow_le
      intro m hm
      rw [List.mem_map] at hm
      obtain ⟨v, _, rfl⟩ := hm
      have := mu_pos v
      omega
    have h3 : (vs.map SimpleExpr.mu).sum ≤ (vs.map SimpleExpr.mu).prod := by
      apply sum_le_prod
      intro m hm
      rw [List.mem_map] at hm
      obtain ⟨v, _, rfl⟩ := hm
      exact mu_pos v
    have hql := flatten_mu_le (SimpleExpr.or
      (vs.map (fun v => (SimpleExpr.simplify (SimpleExpr.not v)).1)))
    have hqmu : (SimpleExpr.or (vs.map (fun v => (SimpleExpr.simplify (SimpleExpr.not v)).1))).mu
        = 2 + SimpleExpr.muSum (vs.map (fun v => (SimpleExpr.simplify (SimpleExpr.not v)).1)) := by
      simp [SimpleExpr.mu]
    have htmu : (SimpleExpr.not (SimpleExpr.and vs)).mu
        = 2 ^ (2 * (vs.map SimpleExpr.mu).prod) := by
      simp [SimpleExpr.mu, muProd_eq_prod]
    have hlt : (SimpleExpr.flatten (SimpleExpr.or
        (vs.map (fun v => (SimpleExpr.simplify (SimpleExpr.not v)).1)))).1.mu
        < (SimpleExpr.not (SimpleExpr.and vs)).mu := by
      rw [htmu]
      cases vs with
      | nil =>
        simp only [List.map_nil] at hql ⊢
        rw [mu_or_nil] at hql
        simp only [List.prod_nil]
        omega
      | cons a as =>
        have hP : 2 ≤ ((a :: as).map SimpleExpr.mu).prod := by
          simp only [List.map_cons, List.prod_cons]
          have h4 := mu_pos a
          have h5 : 1 ≤ (as.map SimpleExpr.mu).prod := by
            apply Nat.one_le_iff_ne_zero.mpr
            intro hz
            rw [List.prod_eq_zero_iff] at hz
            rw [List.mem_map] at hz
            obtain ⟨v, _, hv⟩ := hz
            have := mu_pos v
            omega
          calc 2 = 2 * 1 := by norm_num
            _ ≤ a.mu * (as.map SimpleExpr.mu).prod := Nat.mul_le_mul h4 h5
        set P := ((a :: as).map SimpleExpr.mu).prod with hPdef
        have hXX : 2 ^ (2 * P) = 2 ^ P * 2 ^ P := by
          rw [two_mul, Nat.pow_add]
        have hX : 2 ^ 2 ≤ 2 ^ P := Nat.pow_le_pow_right (by norm_num) hP
        have hchain : (SimpleExpr.flatten (SimpleExpr.or
            ((a :: as).map (fun v => (SimpleExpr.simplify (SimpleExpr.not v)).1)))).1.mu
            ≤ 2 + 2 ^ P := by
          rw [hqmu] at hql
          have h7 : ((a :: as).map (fun v => 2 ^ v.mu)).sum ≤ 2 ^ P := le_trans h2 (by
            exact Nat.pow_le_pow_right (by norm_num) h3)
          omega
        have hfin : 2 + 2 ^ P < 2 ^ (2 * P) := by
          rw [hXX]
          nlinarith
        omega
    refine ⟨le_of_lt hlt, fun _ => hlt, fun hf => Bool.noConfusion hf, fun σ => ?_,
      fun hf => Bool.noConfusion hf⟩
    · rw [flatten_eval]
      simp only [SimpleExpr.evalS]
      rw [evalAny_map_eq_any]
      have hc : vs.any (fun v => (SimpleExpr.simplify (SimpleExpr.not v)).1.evalS σ)
          = vs.any (fun v => !(v.evalS σ)) := by
        apply list_any_congr
        intro v hv
        have := (ih ⟨v, hv⟩).2.2.2.1 σ
        simpa [SimpleExpr.evalS] using this
      rw [hc, any_not_eq_not_all, evalAll_eq_all]
  | case3 vs ih =>
    rw [SimpleExpr.simplify_not_or]
    dsimp only
    have hle : ∀ v ∈ vs, ((fun v => (SimpleExpr.simplify (SimpleExpr.not v)).1) v).mu
        ≤ (fun v => 2 ^ v.mu) v := by
      intro v hv
      have := (ih ⟨v, hv⟩).1
      simpa [SimpleExpr.mu] using this
    have h1 := muProd_map_le hle
    have h2 : (vs.map (fun v => 2 ^ v.mu)).prod = 2 ^ (vs.map SimpleExpr.mu).sum := by
      have hmm : vs.map (fun v => 2 ^ v.mu)
          = (vs.map SimpleExpr.mu).map (fun m => 2 ^ m) := by
        rw [List.map_map]
        rfl
      rw [hmm, prod_two_pow]
    have hql := flatten_mu_le (SimpleExpr.and
      (vs.map (fun v => (SimpleExpr.simplify (SimpleExpr.not v)).1)))
    have hqmu : (SimpleExpr.and (vs.map (fun v => (SimpleExpr.simplify (SimpleExpr.not v)).1))).mu
        = 2 * SimpleExpr.muProd (vs.map (fun v => (SimpleExpr.simplify (SimpleExpr.not v)).1)) := by
      simp [SimpleExpr.mu]
    have htmu : (SimpleExpr.not (SimpleExpr.or vs)).mu
        = 2 ^ (2 + (vs.map SimpleExpr.mu).sum) := by
      simp [SimpleExpr.mu, muSum_eq_sum]
    have hlt : (SimpleExpr.flatten (SimpleExpr.and
        (vs.map (fun v => (SimpleExpr.simplify (SimpleExpr.not v)).1)))).1.mu
        < (SimpleExpr.not (SimpleExpr.or vs)).mu := by
      rw [htmu]
      have hstep : 2 * SimpleExpr.muProd (vs.map (fun v => (SimpleExpr.simplify (SimpleExpr.not v)).1))
          ≤ 2 * 2 ^ (vs.map SimpleExpr.mu).sum := by
        rw [← h2]
        omega
      have hpow : 2 * 2 ^ (vs.map SimpleExpr.mu).sum
          = 2 ^ (1 + (vs.map SimpleExpr.mu).sum) := by
        rw [Nat.pow_add]
      have hmono : 2 ^ (1 + (vs.map SimpleExpr.mu).sum)
          < 2 ^ (2 + (vs.map SimpleExpr.mu).sum) :=
        Nat.pow_lt_pow_right (by norm_num) (by omega)
      rw [hqmu] at hql
      omega
    refine ⟨le_of_lt hlt, fun _ => hlt, fun hf => Bool.noConfusion hf, fun σ => ?_,
      fun hf => Bool.noConfusion hf⟩
    · rw [flatten_eval]
      simp only [SimpleExpr.evalS]
      rw [evalAll_map_eq_all]
      have hc : vs.all (fun v => (SimpleExpr.simplify (SimpleExpr.not v)).1.evalS σ)
          = vs.all (fun v => !(v.evalS σ)) := by
        apply list_all_congr
        intro v hv
        have := (ih ⟨v, hv⟩).2.2.2.1 σ
        simpa [SimpleExpr.evalS] using this
      rw [hc, all_not_eq_not_any, evalAny_eq_any]
  | case4 t =>
    rw [SimpleExpr.simplify_not_terminal]
    exact ⟨le_refl _, fun hf => Bool.noConfusion hf, fun _ => rfl, fun σ => rfl,
      fun _ => by simp [SimpleExpr.isNF]⟩
  | case5 es i hlast ws hws rest ihw =>
    have hrest : rest = es.eraseIdx i := rfl
    rw [SimpleExpr.simplify_and_distribute es i hlast ws hws]
    dsimp only
    have hP1 : 1 ≤ SimpleExpr.muProd (es.eraseIdx i) := muProd_pos _
    have hmues : (SimpleExpr.and es).mu
        = 2 * ((2 + SimpleExpr.muSum ws) * SimpleExpr.muProd (es.eraseIdx i)) := by
      simp only [SimpleExpr.mu]
      rw [muProd_eraseIdx hws]
      simp [SimpleExpr.mu]
    have hle : ∀ w ∈ ws,
        ((fun w => (SimpleExpr.simplify (SimpleExpr.and (es.eraseIdx i ++ [w]))).1) w).mu
          ≤ (fun w => (2 * SimpleExpr.muProd (es.eraseIdx i)) * w.mu) w := by
      intro w hw
      have h1 := (ihw ⟨w, hw⟩).1
      rw [hrest] at h1
      have h2 : (SimpleExpr.and (es.eraseIdx i ++ [w])).mu
          = (2 * SimpleExpr.muProd (es.eraseIdx i)) * w.mu := by
        simp only [SimpleExpr.mu, muProd_append]
        simp [SimpleExpr.muProd]
        ring
      rw [h2] at h1
      exact h1
    have hsum := muSum_map_le hle
    rw [sum_map_const_mul] at hsum
    have hq := flatten_mu_le (SimpleExpr.or
      (ws.map (fun w => (SimpleExpr.simplify (SimpleExpr.and (es.eraseIdx i ++ [w]))).1)))
    have hqmu : (SimpleExpr.or
        (ws.map (fun w => (SimpleExpr.simplify (SimpleExpr.and (es.eraseIdx i ++ [w]))).1))).mu
        = 2 + SimpleExpr.muSum
          (ws.map (fun w => (SimpleExpr.simplify (SimpleExpr.and (es.eraseIdx i ++ [w]))).1)) := by
      simp [SimpleExpr.mu]
    have hlt : (SimpleExpr.flatten (SimpleExpr.or
        (ws.map (fun w => (SimpleExpr.simplify (SimpleExpr.and (es.eraseIdx i ++ [w]))).1)))).1.mu
        < (SimpleExpr.and es).mu := by
      rw [hqmu] at hq
      rw [hmues]
      nlinarith [hq, hsum, hP1]
    refine ⟨le_of_lt hlt, fun _ => hlt, fun hf => Bool.noConfusion hf, fun σ => ?_,
      fun hf => Bool.noConfusion hf⟩
    · rw [flatten_eval]
      simp only [SimpleExpr.evalS]
      rw [evalAny_map_eq_any]
      have hc : ws.any (fun w =>
          (SimpleExpr.simplify (SimpleExpr.and (es.eraseIdx i ++ [w]))).1.evalS σ)
          = ws.any (fun w => SimpleExpr.evalAll σ (es.eraseIdx i) && w.evalS σ) := by
        apply list_any_congr
        intro w hw
        have h1 := (ihw ⟨w, hw⟩).2.2.2.1 σ
        rw [hrest] at h1
        rw [h1]
        simp only [SimpleExpr.evalS]
        rw [evalAll_append]
        simp [SimpleExpr.evalAll]
      rw [hc, any_and_left]
      rw [evalAll_eraseIdx σ hws]
      simp only [SimpleExpr.evalS]
      rw [evalAny_eq_any]
      rw [Bool.and_comm]
  | case6 es i hlast hfall =>
    obtain ⟨ws, hws⟩ := lastOrIdx_some hlast
    exact (hfall ws hws).elim
  | case7 es hlast ih =>
    rw [SimpleExpr.simplify_and_noor es hlast]
    dsimp only
    have hle : ∀ v ∈ es, ((fun v => (SimpleExpr.simplify v).1) v).mu ≤ SimpleExpr.mu v :=
      fun v hv => (ih ⟨v, hv⟩).1
    have hprodle : SimpleExpr.muProd (es.map (fun v => (SimpleExpr.simplify v).1))
        ≤ SimpleExpr.muProd es := by
      have := muProd_map_le (G := SimpleExpr.mu) hle
      rwa [← muProd_eq_prod] at this
    have hq := flatten_mu_le (SimpleExpr.and (es.map (fun v => (SimpleExpr.simplify v).1)))
    have hqmu : (SimpleExpr.and (es.map (fun v => (SimpleExpr.simplify v).1))).mu
        = 2 * SimpleExpr.muProd (es.map (fun v => (SimpleExpr.simplify v).1)) := by
      simp [SimpleExpr.mu]
    have hesmu : (SimpleExpr.and es).mu = 2 * SimpleExpr.muProd es := by
      simp [SimpleExpr.mu]
    refine ⟨?_, ?_, ?_, ?_, ?_⟩
    · rw [hqmu] at hq
      rw [hesmu]
      omega
    · intro hflag
      rw [Bool.or_eq_true] at hflag
      rcases hflag with hflag | hflag
      · have := flatten_mu_lt _ hflag
        rw [hqmu] at this
        rw [hesmu]
        omega
      · rw [List.any_eq_true] at hflag
        obtain ⟨v, hv, hvt⟩ := hflag
        have hstrict := (ih ⟨v, hv⟩).2.1 hvt
        have hlt := muProd_map_lt (F := fun v => (SimpleExpr.simplify v).1) hle hv hstrict
        rw [hqmu] at hq
        rw [hesmu]
        omega
    · intro hflag
      rw [Bool.or_eq_false_iff] at hflag
      obtain ⟨hq2, hc⟩ := hflag
      rw [List.any_eq_false] at hc
      have hmap : es.map (fun v => (SimpleExpr.simplify v).1) = es := by
        have h1 : es.map (fun v => (SimpleExpr.simplify v).1) = es.map id :=
          List.map_eq_map_iff.mpr (fun v hv =>
            (ih ⟨v, hv⟩).2.2.1 (Bool.eq_false_iff.mpr (hc v hv)))
        rw [h1, List.map_id]
      rw [hmap] at hq2 ⊢
      exact flatten_unchanged _ hq2
    · intro σ
      rw [flatten_eval]
      simp only [SimpleExpr.evalS]
      rw [evalAll_map_eq_all]
      rw [list_all_congr (fun v hv => (ih ⟨v, hv⟩).2.2.2.1 σ), ← evalAll_eq_all]
    · intro hflag
      rw [Bool.or_eq_false_iff] at hflag
      obtain ⟨hq2, hc⟩ := hflag
      rw [List.any_eq_false] at hc
      have hmap : es.map (fun v => (SimpleExpr.simplify v).1) = es := by
        have h1 : es.map (fun v => (SimpleExpr.simplify v).1) = es.map id :=
          List.map_eq_map_iff.mpr (fun v hv =>
            (ih ⟨v, hv⟩).2.2.1 (Bool.eq_false_iff.mpr (hc v hv)))
        rw [h1, List.map_id]
      rw [hmap] at hq2
      have hscan := @flattenLoop_no_variant _ SimpleExpr.isAnd
        es 0 es.length false hq2
      have hnf : SimpleExpr.nfAndList es = true := by
        rw [nfAndList_eq_all, List.all_eq_true]
        intro v hv
        obtain ⟨j, hj⟩ := List.mem_iff_getElem?.mp hv
        have hjlen : j < es.length := getElem?_some_lt hj
        have hnand := hscan j v (Nat.zero_le _) hjlen hj
        have hnor := lastOrIdx_none hlast v hv
        have hvnf := (ih ⟨v, hv⟩).2.2.2.2 (Bool.eq_false_iff.mpr (hc v hv))
        simp [hvnf, hnand, hnor]
      simp only [SimpleExpr.isNF]
      exact hnf
  | case8 es ih =>
    rw [SimpleExpr.simplify_or es]
    dsimp only
    have hle : ∀ v ∈ es, ((fun v => (SimpleExpr.simplify v).1) v).mu ≤ SimpleExpr.mu v :=
      fun v hv => (ih ⟨v, hv⟩).1
    have hsumle : SimpleExpr.muSum (es.map (fun v => (SimpleExpr.simplify v).1))
        ≤ SimpleExpr.muSum es := by
      have := muSum_map_le (G := SimpleExpr.mu) hle
      rwa [← muSum_eq_sum] at this
    have hq := flatten_mu_le (SimpleExpr.or (es.map (fun v => (SimpleExpr.simplify v).1)))
    have hqmu : (SimpleExpr.or (es.map (fun v => (SimpleExpr.simplify v).1))).mu
        = 2 + SimpleExpr.muSum (es.map (fun v => (SimpleExpr.simplify v).1)) := by
      simp [SimpleExpr.mu]
    have hesmu : (SimpleExpr.or es).mu = 2 + SimpleExpr.muSum es := by
      simp [SimpleExpr.mu]
    refine ⟨?_, ?_, ?_, ?_, ?_⟩
    · rw [hqmu] at hq
      rw [hesmu]
      omega
    · intro hflag
      rw [Bool.or_eq_true] at hflag
      rcases hflag with hflag | hflag
      · have := flatten_mu_lt _ hflag
        rw [hqmu] at this
        rw [hesmu]
        omega
      · rw [List.any_eq_true] at hflag
        obtain ⟨v, hv, hvt⟩ := hflag
        have hstrict := (ih ⟨v, hv⟩).2.1 hvt
        have hlt := muSum_map_lt (F := fun v => (SimpleExpr.simplify v).1) hle hv hstrict
        rw [hqmu] at hq
        rw [hesmu]
        omega
    · intro hflag
      rw [Bool.or_eq_false_iff] at hflag
      obtain ⟨hq2, hc⟩ := hflag
      rw [List.any_eq_false] at hc
      have hmap : es.map (fun v => (SimpleExpr.simplify v).1) = es := by
        have h1 : es.map (fun v => (SimpleExpr.simplify v).1) = es.map id :=
          List.map_eq_map_iff.mpr (fun v hv =>
            (ih ⟨v, hv⟩).2.2.1 (Bool.eq_false_iff.mpr (hc v hv)))
        rw [h1, List.map_id]
      rw [hmap] at hq2 ⊢
      exact flatten_unchanged _ hq2
    · intro σ
      rw [flatten_eval]
      simp only [SimpleExpr.evalS]
      rw [evalAny_map_eq_any]
      rw [list_any_congr (fun v hv => (ih ⟨v, hv⟩).2.2.2.1 σ), ← evalAny_eq_any]
    · intro hflag
      rw [Bool.or_eq_false_iff] at hflag
      obtain ⟨hq2, hc⟩ := hflag
      rw [List.any_eq_false] at hc
      have hmap : es.map (fun v => (SimpleExpr.simplify v).1) = es := by
        have h1 : es.map (fun v => (SimpleExpr.simplify v).1) = es.map id :=
          List.map_eq_map_iff.mpr (fun v hv =>
            (ih ⟨v, hv⟩).2.2.1 (Bool.eq_false_iff.mpr (hc v hv)))
        rw [h1, List.map_id]
      rw [hmap] at hq2
      have hscan := @flattenLoop_no_variant _ SimpleExpr.isOr
        es 0 es.length false hq2
      have hnf : SimpleExpr.nfOrList es = true := by
        rw [nfOrList_eq_all, List.all_eq_true]
        intro v hv
        obtain ⟨j, hj⟩ := List.mem_iff_getElem?.mp hv
        have hjlen : j < es.length := getElem?_some_lt hj
        have hnor := hscan j v (Nat.zero_le _) hjlen hj
        have hvnf := (ih ⟨v, hv⟩).2.2.2.2 (Bool.eq_false_iff.mpr (hc v hv))
        simp [hvnf, hnor]
      simp only [SimpleExpr.isNF]
      exact hnf
  | case9 t =>
    rw [SimpleExpr.simplify_terminal]
    exact ⟨le_refl _, fun hf => Bool.noConfusion hf, fun _ => rfl, fun σ => rfl,
      fun _ => by simp [SimpleExpr.isNF]⟩

theorem runSimplify_spec : ∀ (n : Nat) (e : SimpleExpr T), e.mu ≤ n →
    ∃ e', runSimplify n e = some e' ∧ e'.isNF = true ∧
      ∀ σ : T → Bool, e'.evalS σ = e.evalS σ := by
  intro n
  induction n with
  | zero =>
    intro e he
    have := mu_pos e
    omega
  | succ n ih =>
    intro e he
    obtain ⟨hle, hlt, hunch, heval, hnf⟩ := SimpleExpr.simplify_spec e
    rw [runSimplify]
    cases hflag : (SimpleExpr.simplify e).2 with
    | false =>
      refine ⟨(SimpleExpr.simplify e).1, ?_, ?_, ?_⟩
      · rw [show SimpleExpr.simplify e = ((SimpleExpr.simplify e).1, (SimpleExpr.simplify e).2) from rfl, hflag]
      · rw [hunch hflag]
        exact hnf hflag
      · exact heval
    | true =>
      have hmu : (SimpleExpr.simplify e).1.mu ≤ n := by
        have := hlt hflag
        omega
      obtain ⟨e', h1, h2, h3⟩ := ih (SimpleExpr.simplify e).1 hmu
      refine ⟨e', ?_, h2, fun σ => ?_⟩
      · rw [show SimpleExpr.simplify e = ((SimpleExpr.simplify e).1, (SimpleExpr.simplify e).2) from rfl, hflag]
        exact h1
      · rw [h3 σ, heval σ]

theorem simplifyFix_spec (e : SimpleExpr T) :
    runSimplify e.mu e = some (simplifyFix e) ∧
      (simplifyFix e).isNF = true ∧
      ∀ σ : T → Bool, (simplifyFix e).evalS σ = e.evalS σ := by
  obtain ⟨e', h1, h2, h3⟩ := runSimplify_spec e.mu e (le_refl _)
  have hfix : simplifyFix e = e' := by
    rw [simplifyFix, h1]
    rfl
  rw [hfix]
  exact ⟨h1, h2, h3⟩

inductive Lookup (T : Type) where
  | any : T → Lookup T
  | single : T → T → Lookup T
  | list : T → List T → Lookup T

inductive Expr (T : Type) where
  | not : Expr T → Expr T
  | and : List (Expr T) → Expr T
  | or : List (Expr T) → Expr T
  | lookup : Lookup T → Expr T

mutual
def Expr.esize : Expr T → Nat
  | .not e => e.esize + 1
  | .and es => Expr.esizeList es + 1
  | .or es => Expr.esizeList es + 1
  | .lookup _ => 1
def Expr.esizeList : List (Expr T) → Nat
  | [] => 0
  | e :: es => e.esize + Expr.esizeList es
end

theorem esize_le_esizeList_of_mem {w : Expr T} {ws : List (Expr T)}
    (h : w ∈ ws) : w.esize ≤ Expr.esizeList ws := by
  induction ws with
  | nil => simp at h
  | cons x xs ih =>
    simp only [List.mem_cons] at h
    rcases h with rfl | h
    · simp [Expr.esizeList]
    · have := ih h
      simp [Expr.esizeList]
      omega

def SimpleExpr.from_config : Expr T → SimpleExpr (T × Option T)
  | .not inner => SimpleExpr.not (SimpleExpr.from_config inner)
  | .and vec => SimpleExpr.and (vec.attach.map fun v => SimpleExpr.from_config v.1)
  | .or vec => SimpleExpr.or (vec.attach.map fun v => SimpleExpr.from_config v.1)
  | .lookup (.any key) => SimpleExpr.terminal (key, none)
  | .lookup (.single key value) => SimpleExpr.terminal (key, some value)
  | .lookup (.list key values) =>
    SimpleExpr.or (values.map fun value => SimpleExpr.terminal (key, some value))
termination_by e => e.esize
decreasing_by
  · simp [Expr.esize]
  · have := esize_le_esizeList_of_mem v.2
    simp [Expr.esize]
    omega
  · have := esize_le_esizeList_of_mem v.2
    simp [Expr.esize]
    omega

mutual
def Expr.evalE (σ : T × Option T → Bool) : Expr T → Bool
  | .not e => !(e.evalE σ)
  | .and es => Expr.evalEAll σ es
  | .or es => Expr.evalEAny σ es
  | .lookup (.any key) => σ (key, none)
  | .lookup (.single key value) => σ (key, some value)
  | .lookup (.list key values) => values.any fun value => σ (key, some value)
def Expr.evalEAll (σ : T × Option T → Bool) : List (Expr T) → Bool
  | [] => true
  | e :: es => e.evalE σ && Expr.evalEAll σ es
def Expr.evalEAny (σ : T × Option T → Bool) : List (Expr T) → Bool
  | [] => false
  | e :: es => e.evalE σ || Expr.evalEAny σ es
end

/-- The top-level `simplify` free function of `simplify.rs` (named apart from
the method `SimpleExpr.simplify` it drives): convert the config expression
and run the rewrite pass to a fixpoint. -/
def simplifyExpr (expr : Expr T) : SimpleExpr (T × Option T) :=
  simplifyFix (SimpleExpr.from_config expr)

theorem any_map_gen {α β : Type} (l : List α) (f : α → β) (p : β → Bool) :
    (l.map f).any p = l.any (fun a => p (f a)) := by
  induction l with
  | nil => rfl
  | cons a as ih => simp only [List.map_cons, List.any_cons, ih]

theorem all_map_gen {α β : Type} (l : List α) (f : α → β) (p : β → Bool) :
    (l.map f).all p = l.all (fun a => p (f a)) := by
  induction l with
  | nil => rfl
  | cons a as ih => simp only [List.map_cons, List.all_cons, ih]

theorem evalEAll_eq_all (σ : T × Option T → Bool) (l : List (Expr T)) :
    Expr.evalEAll σ l = l.all (Expr.evalE σ) := by
  induction l with
  | nil => rfl
  | cons a as ih => simp only [Expr.evalEAll, List.all_cons, ih]

theorem evalEAny_eq_any (σ : T × Option T → Bool) (l : List (Expr T)) :
    Expr.evalEAny σ l = l.any (Expr.evalE σ) := by
  induction l with
  | nil => rfl
  | cons a as ih => simp only [Expr.evalEAny, List.any_cons, ih]

theorem from_config_eval (e : Expr T) (σ : T × Option T → Bool) :
    (SimpleExpr.from_config e).evalS σ = e.evalE σ := by
  induction e using SimpleExpr.from_config.induct with
  | case1 x ih =>
    rw [SimpleExpr.from_config]
    simp only [SimpleExpr.evalS, Expr.evalE, ih]
  | case2 vec ih =>
    rw [SimpleExpr.from_config]
    simp only [SimpleExpr.evalS, Expr.evalE]
    rw [List.attach_map_val vec (fun v => SimpleExpr.from_config v)]
    rw [evalAll_eq_all, all_map_gen, evalEAll_eq_all]
    exact list_all_congr (fun v hv => ih ⟨v, hv⟩)
  | case3 vec ih =>
    rw [SimpleExpr.from_config]
    simp only [SimpleExpr.evalS, Expr.evalE]
    rw [List.attach_map_val vec (fun v => SimpleExpr.from_config v)]
    rw [evalAny_eq_any, any_map_gen, evalEAny_eq_any]
    exact list_any_congr (fun v hv => ih ⟨v, hv⟩)
  | case4 key =>
    rw [SimpleExpr.from_config]
    simp [SimpleExpr.evalS, Expr.evalE]
  | case5 key value =>
    rw [SimpleExpr.from_config]
    simp [SimpleExpr.evalS, Expr.evalE]
  | case6 key values =>
    rw [SimpleExpr.from_config]
    simp only [SimpleExpr.evalS, Expr.evalE]
    rw [evalAny_eq_any, any_map_gen]
    apply list_any_congr
    intro v hv
    simp [SimpleExpr.evalS]

/-- C5: Boolean simplification preserves semantics: for every config
expression `e` and every assignment `σ` of truth values to its terminal
lookups — `Any{key}` read as the terminal `(key, none)`, `Single` as
`(key, some value)`, and `List` as the `Or` of its `Single` members —
evaluating `e` gives the same boolean result as evaluating `simplify e`. -/
theorem simplify_preserves_eval {T : Type} (e : Expr T) (σ : T × Option T → Bool) :
    (simplifyExpr e).evalS σ = e.evalE σ := by
  rw [simplifyExpr]
  rw [(simplifyFix_spec (SimpleExpr.from_config e)).2.2 σ]
  exact from_config_eval e σ

/-- C6: For every input expression, the top-level simplify loop — repeatedly
applying the rewrite pass while it reports a change — terminates (the
fuelled unrolling `runSimplify` reaches the fixpoint within `mu` steps
instead of running out of fuel), and the result is in the stated normal
form: no `Not` wraps anything but a `Terminal`, no `And` directly contains
an `Or`, and no `And`/`Or` directly contains a child of the same kind. -/
theorem simplify_terminates_normal_form {T : Type} (e : Expr T) :
    ∃ e' : SimpleExpr (T × Option T),
      runSimplify (SimpleExpr.from_config e).mu (SimpleExpr.from_config e) = some e' ∧
      e'.isNF = true ∧ simplifyExpr e = e' := by
  obtain ⟨h1, h2, h3⟩ := simplifyFix_spec (SimpleExpr.from_config e)
  exact ⟨simplifyFix (SimpleExpr.from_config e), h1, h2, rfl⟩


/-! ## Geometry: `geometry/grid.rs`, `primitives.rs`, `polygon.rs`, `generator.rs`

`Pt` stands for `Vector2<f64>` (coordinates modelled as exact rationals) and
`Idx` for `Vector2<isize>`.  `satFloor` is the saturating `as isize` cast of
`f64::floor`; `GridG` carries the fields of `Grid` relevant to clipping.
`halfPlaneClip` is `HalfPlane::clip`, `iter_edges` the wrapping edge
iterator of `polygon.rs`, `GridG.clip_polygon` the faithful translation of
`Grid::clip_polygon` — including the `index_box.max.y = self.size.x` row
clamp of grid.rs line 93 — producing the list of `polygon_add(index, tile)`
calls it makes.  `GridG.polygon_add_delivered` applies `Grid::polygon_add`'s
`safe_vector_index` check to those calls; `generator_polygon_add` adds the
empty-polygon filter of `WorldGenerator`'s `GridTile::polygon_add`.
`GridG.clip_path` produces the `path_enter`/`path_step`/`path_leave` events
of `Grid::clip_path` (`GridG.walk` is the inner `while next_i != current_i`
loop), `GridG.apply_event` folds them over the generator's per-tile way
buffers, and `way_handler` is `WorldGenerator::way`'s skip logic. -/

abbrev Pt : Type := ℚ × ℚ
abbrev Idx : Type := ℤ × ℤ

def isizeMax : Int := 2 ^ 63 - 1
def isizeMin : Int := -(2 ^ 63)

/-- The saturating `f.floor() as isize` cast used by `lookup_point`. -/
def satFloor (q : ℚ) : Int := max isizeMin (min isizeMax ⌊q⌋)

structure GridG where
  bboxMin : Pt
  bboxMax : Pt
  step : Pt
  size : Idx

def GridG.lookup_point (g : GridG) (p : Pt) : Idx :=
  (satFloor ((p.1 - g.bboxMin.1) / g.step.1), satFloor ((p.2 - g.bboxMin.2) / g.step.2))

def GridG.tile_box (g : GridG) (i : Idx) : Pt × Pt :=
  let m : Pt := (g.bboxMin.1 + g.step.1 * (i.1 : ℚ), g.bboxMin.2 + g.step.2 * (i.2 : ℚ))
  (m, (m.1 + g.step.1, m.2 + g.step.2))

def GridG.contains (g : GridG) (p : Pt) : Bool :=
  g.bboxMin.1 ≤ p.1 ∧ g.bboxMin.2 ≤ p.2 ∧ p.1 ≤ g.bboxMax.1 ∧ p.2 ≤ g.bboxMax.2

structure IndexBox where
  min : Idx
  max : Idx
deriving DecidableEq

def IndexBox.empty : IndexBox := ⟨(isizeMax, isizeMax), (isizeMin, isizeMin)⟩

def IndexBox.fit (b : IndexBox) (i : Idx) : IndexBox :=
  ⟨(Min.min b.min.1 i.1, Min.min b.min.2 i.2), (Max.max b.max.1 i.1, Max.max b.max.2 i.2)⟩

def indexBoxOf (l : List Idx) : IndexBox := l.foldl IndexBox.fit IndexBox.empty

inductive Coord where
  | X : Coord
  | Y : Coord

def Coord.get : Coord → Pt → ℚ
  | .X, p => p.1
  | .Y, p => p.2

inductive CmpOp where
  | Gt : CmpOp
  | Lt : CmpOp

def CmpOp.cmp : CmpOp → ℚ → ℚ → Bool
  | .Gt, p, q => p > q
  | .Lt, p, q => p < q

def lineIntersect (c : Coord) (value : ℚ) (p q : Pt) : Pt :=
  let delta : Pt := (q.1 - p.1, q.2 - p.2)
  let lambda : ℚ := (value - c.get p) / c.get delta
  (delta.1 * lambda + p.1, delta.2 * lambda + p.2)

def iter_edges (polygon : List Pt) : List (Pt × Pt) :=
  match polygon with
  | [] => []
  | p :: rest => List.zip (p :: rest) (rest ++ [p])

def halfPlaneClip (c : Coord) (o : CmpOp) (value : ℚ) (input : List Pt) : List Pt :=
  (iter_edges input).foldl
    (fun output pc =>
      let previous := pc.1
      let current := pc.2
      let intersection := lineIntersect c value current previous
      if o.cmp (c.get current) value then
        (if !o.cmp (c.get previous) value then output ++ [intersection] else output)
          ++ [current]
      else if o.cmp (c.get previous) value then output ++ [intersection]
      else output)
    []

def intRange (lo hi : Int) : List Int := (List.range (hi - lo).toNat).map (fun k => lo + k)

def GridG.clip_polygon (g : GridG) (polygon : List Pt) : List (Idx × List Pt) :=
  let ibox := indexBoxOf (polygon.map g.lookup_point)
  if ibox.min = ibox.max then [(ibox.min, polygon)]
  else
    let ibox : IndexBox := ⟨ibox.min, (ibox.max.1 + 1, ibox.max.2 + 1)⟩
    if ibox.min.1 ≥ g.size.1 ∨ ibox.min.2 ≥ g.size.2
        ∨ ibox.max.1 < 0 ∨ ibox.max.2 < 0 then []
    else
      let minx := if ibox.min.1 < 0 then 0 else ibox.min.1
      let miny := if ibox.min.2 < 0 then 0 else ibox.min.2
      let maxx := if ibox.max.1 > g.size.1 then g.size.1 else ibox.max.1
      let maxy := if ibox.max.2 > g.size.2 then g.size.1 else ibox.max.2
      (intRange miny maxy).flatMap (fun y =>
        let bbox := g.tile_box (0, y)
        let temp := halfPlaneClip .Y .Gt bbox.1.2 polygon
        let row := halfPlaneClip .Y .Lt bbox.2.2 temp
        (intRange minx maxx).map (fun x =>
          let bbox := g.tile_box (x, y)
          let temp2 := halfPlaneClip .X .Gt bbox.1.1 row
          let tile := halfPlaneClip .X .Lt bbox.2.1 temp2
          ((x, y), tile)))

def GridG.safe_vector_index (g : GridG) (i : Idx) : Option Nat :=
  if 0 ≤ i.1 ∧ i.1 < g.size.1 ∧ 0 ≤ i.2 ∧ i.2 < g.size.2 then
    some (i.1 + g.size.1 * i.2).toNat
  else
    none

def GridG.polygon_add_delivered (g : GridG) (events : List (Idx × List Pt)) :
    List (Nat × List Pt) :=
  events.filterMap fun ev => (g.safe_vector_index ev.1).map fun j => (j, ev.2)

def generator_polygon_add (g : GridG) (events : List (Idx × List Pt)) :
    List (Nat × List Pt) :=
  events.filterMap fun ev =>
    (g.safe_vector_index ev.1).bind fun j =>
      if ev.2.isEmpty then none else some (j, ev.2)

def GridG.clip_point (g : GridG) (p : Pt) : List (Nat × Pt) :=
  match g.safe_vector_index (g.lookup_point p) with
  | some j => [(j, p)]
  | none => []

def normSquared (p : Pt) : ℚ := p.1 * p.1 + p.2 * p.2

/-- The candidate boundary intersections collected by `clip_path`'s inner
loop (the `SmallVec<[(Index, Point); 2]>`), in push order. -/
def GridG.intersections (g : GridG) (cur next : Idx) (cp np : Pt) : List (Idx × Pt) :=
  let cbox := g.tile_box cur
  (if next.1 > cur.1 then [(((1 : ℤ), (0 : ℤ)), lineIntersect .X cbox.2.1 cp np)] else [])
    ++ (if next.1 < cur.1 then [((-1, 0), lineIntersect .X cbox.1.1 cp np)] else [])
    ++ (if next.2 > cur.2 then [((0, 1), lineIntersect .Y cbox.2.2 cp np)] else [])
    ++ (if next.2 < cur.2 then [((0, -1), lineIntersect .Y cbox.1.2 cp np)] else [])

/-- The `match intersections.as_slice()` selection: a single candidate is
taken; of two candidates the one nearer to the current point wins, ties
falling to the second. The fallback arm is unreachable while the loop
guard holds. -/
def selectNearest (cp : Pt) : List (Idx × Pt) → Idx × Pt
  | [t] => t
  | [t1, t2] =>
    if normSquared (cp.1 - t1.2.1, cp.2 - t1.2.2)
        < normSquared (cp.1 - t2.2.1, cp.2 - t2.2.2) then t1 else t2
  | _ => ((0, 0), cp)

inductive PathEvent where
  | enter : Idx → Pt → PathEvent
  | step : Idx → Pt → PathEvent
  | leave : Idx → Pt → PathEvent

theorem intersections_sub {g : GridG} {cur next : Idx} {cp np : Pt} :
    ∀ t ∈ g.intersections cur next cp np,
      (next.1 - (cur.1 + t.1.1)).natAbs + (next.2 - (cur.2 + t.1.2)).natAbs
        < (next.1 - cur.1).natAbs + (next.2 - cur.2).natAbs := by
  intro t ht
  unfold GridG.intersections at ht
  simp only [List.mem_append, List.mem_ite_nil_right, List.mem_singleton] at ht
  rcases ht with ((⟨h1, h2⟩ | ⟨h1, h2⟩) | ⟨h1, h2⟩) | ⟨h1, h2⟩ <;>
    (subst h2
     dsimp only
     omega)

theorem selectNearest_mem (cp : Pt) (l : List (Idx × Pt)) (h1 : l ≠ [])
    (h2 : l.length ≤ 2) : selectNearest cp l ∈ l := by
  match l with
  | [t] => simp [selectNearest]
  | [t1, t2] =>
    rw [selectNearest]
    split
    · simp
    · simp
  | [] => exact absurd rfl h1
  | a :: b :: c :: rest => simp at h2

theorem intersections_length (g : GridG) (cur next : Idx) (cp np : Pt) :
    (g.intersections cur next cp np).length ≤ 2 := by
  unfold GridG.intersections
  by_cases h1 : next.1 > cur.1 <;> by_cases h2 : next.1 < cur.1 <;>
    by_cases h3 : next.2 > cur.2 <;> by_cases h4 : next.2 < cur.2 <;>
    simp [h1, h2, h3, h4] <;> omega

theorem intersections_ne_nil (g : GridG) {cur next : Idx} (cp np : Pt)
    (h : cur ≠ next) : g.intersections cur next cp np ≠ [] := by
  unfold GridG.intersections
  intro hc
  by_cases h1 : next.1 > cur.1 <;> by_cases h2 : next.1 < cur.1 <;>
    by_cases h3 : next.2 > cur.2 <;> by_cases h4 : next.2 < cur.2 <;>
    simp [h1, h2, h3, h4] at hc <;>
    exact h (Prod.ext (by omega) (by omega))

/-- The `while next_i != current_i` loop of `clip_path`, emitting
`path_leave`/`path_enter` pairs while stepping one tile at a time. -/
def GridG.walk (g : GridG) (cur next : Idx) (cp np : Pt) : List PathEvent :=
  if h : cur = next then []
  else
    let sel := selectNearest cp (g.intersections cur next cp np)
    PathEvent.leave cur sel.2 :: PathEvent.enter (cur.1 + sel.1.1, cur.2 + sel.1.2) sel.2
      :: g.walk (cur.1 + sel.1.1, cur.2 + sel.1.2) next cp np
termination_by (next.1 - cur.1).natAbs + (next.2 - cur.2).natAbs
decreasing_by
  exact intersections_sub _ (selectNearest_mem cp _ (intersections_ne_nil g cp np h)
    (intersections_length g cur next cp np))

/-- The per-point body and trailing flush of `clip_path`. -/
def GridG.clip_path_loop (g : GridG) (cur : Idx) (cp : Pt) :
    List Pt → List PathEvent
  | [] => [PathEvent.leave cur cp]
  | np :: rest =>
    let next := g.lookup_point np
    g.walk cur next cp np ++ [PathEvent.step next np]
      ++ g.clip_path_loop (g.lookup_point np) np rest

def GridG.clip_path (g : GridG) (path : List Pt) : List PathEvent :=
  match path with
  | [] => []
  | p0 :: rest =>
    (if g.contains p0 then [PathEvent.enter (g.lookup_point p0) p0] else [])
      ++ g.clip_path_loop (g.lookup_point p0) p0 rest

/-- Work-in-progress way buffers plus published ways, mirroring
`WorldGenerator`'s `way_buffer`/`tiles` pair; `ok` records that no
`assert_eq!(way.len(), 0)` in `path_enter` has fired. -/
structure PathState where
  bufs : Nat → List Pt
  outs : List (Nat × List Pt)
  ok : Bool

def GridG.apply_event (g : GridG) (st : PathState) (ev : PathEvent) : PathState :=
  match ev with
  | .enter i p =>
    match g.safe_vector_index i with
    | some j =>
      { st with
        bufs := Function.update st.bufs j (st.bufs j ++ [p])
        ok := st.ok && (st.bufs j).isEmpty }
    | none => st
  | .step i p =>
    match g.safe_vector_index i with
    | some j => { st with bufs := Function.update st.bufs j (st.bufs j ++ [p]) }
    | none => st
  | .leave i p =>
    match g.safe_vector_index i with
    | some j =>
      { st with
        bufs := Function.update st.bufs j []
        outs := st.outs ++ [(j, st.bufs j ++ [p])] }
    | none => st

def GridG.run_path (g : GridG) (path : List Pt) (bufs0 : Nat → List Pt) : PathState :=
  (g.clip_path path).foldl g.apply_event ⟨bufs0, [], true⟩

/-- `WorldGenerator::way`: skip node-less and closed ways (first and last
node ids equal), then clip the projected node list. -/
def way_handler {N : Type} (g : GridG) (proj : N → Option Pt) (getId : N → Int)
    (nodes : List N) : List PathEvent :=
  match nodes.head?, nodes.getLast? with
  | some first, some last =>
    if getId first = getId last then [] else g.clip_path (nodes.filterMap proj)
  | _, _ => []

/-- Invariant: every in-range buffer other than (possibly) the current
tile's is empty. -/
def OnlyAt (g : GridG) (cur : Idx) (st : PathState) : Prop :=
  ∀ j : Nat, g.safe_vector_index cur ≠ some j → st.bufs j = []

theorem apply_leave_all_empty (g : GridG) (cur : Idx) (p : Pt) (st : PathState)
    (h : OnlyAt g cur st) :
    ∀ j, (g.apply_event st (PathEvent.leave cur p)).bufs j = [] := by
  intro j
  rw [GridG.apply_event]
  cases hs : g.safe_vector_index cur with
  | none => exact h j (by rw [hs]; exact fun hc => Option.noConfusion hc)
  | some k =>
    dsimp only
    by_cases hj : j = k
    · subst hj
      simp
    · show Function.update st.bufs k [] j = []
      rw [Function.update_noteq hj]
      exact h j (by rw [hs]; intro hc; exact hj (Option.some.inj hc).symm)

theorem apply_leave_ok (g : GridG) (i : Idx) (p : Pt) (st : PathState) :
    (g.apply_event st (PathEvent.leave i p)).ok = st.ok := by
  rw [GridG.apply_event]
  cases g.safe_vector_index i <;> rfl

theorem apply_enter_from_empty (g : GridG) (i : Idx) (p : Pt) (st : PathState)
    (hok : st.ok = true) (hemp : ∀ j, st.bufs j = []) :
    (g.apply_event st (PathEvent.enter i p)).ok = true ∧
      OnlyAt g i (g.apply_event st (PathEvent.enter i p)) := by
  rw [GridG.apply_event]
  cases hs : g.safe_vector_index i with
  | none =>
    exact ⟨hok, fun j _ => hemp j⟩
  | some k =>
    dsimp only
    constructor
    · rw [hok, hemp k]
      rfl
    · intro j hj
      rw [hs] at hj
      have hjk : j ≠ k := fun hc => hj (by rw [hc])
      show Function.update st.bufs k (st.bufs k ++ [p]) j = []
      rw [Function.update_noteq hjk]
      exact hemp j

theorem apply_step_onlyat (g : GridG) (i : Idx) (p : Pt) (st : PathState)
    (h : OnlyAt g i st) :
    (g.apply_event st (PathEvent.step i p)).ok = st.ok ∧
      OnlyAt g i (g.apply_event st (PathEvent.step i p)) := by
  rw [GridG.apply_event]
  cases hs : g.safe_vector_index i with
  | none => exact ⟨rfl, fun j hj => h j (by rw [hs]; exact fun hc => Option.noConfusion hc)⟩
  | some k =>
    refine ⟨rfl, fun j hj => ?_⟩
    rw [hs] at hj
    have hjk : j ≠ k := fun hc => hj (by rw [hc])
    show Function.update st.bufs k (st.bufs k ++ [p]) j = []
    rw [Function.update_noteq hjk]
    exact h j (by rw [hs]; intro hc; exact hjk (Option.some.inj hc).symm)

theorem walk_inv (g : GridG) (cur next : Idx) (cp np : Pt) :
    ∀ st : PathState, st.ok = true → OnlyAt g cur st →
      ((g.walk cur next cp np).foldl g.apply_event st).ok = true ∧
        OnlyAt g next ((g.walk cur next cp np).foldl g.apply_event st) := by
  induction cur, next, cp, np using GridG.walk.induct g with
  | case1 cur cp np =>
    intro st hok honly
    rw [GridG.walk, dif_pos rfl]
    exact ⟨hok, honly⟩
  | case2 cur next cp np hne sel ih =>
    intro st hok honly
    rw [GridG.walk, dif_neg hne]
    dsimp only
    rw [List.foldl_cons, List.foldl_cons]
    have h1 := apply_leave_all_empty g cur sel.2 st honly
    have h2 : (g.apply_event st (PathEvent.leave cur sel.2)).ok = true := by
      rw [apply_leave_ok]
      exact hok
    obtain ⟨h3, h4⟩ := apply_enter_from_empty g (cur.1 + sel.1.1, cur.2 + sel.1.2)
      sel.2 (g.apply_event st (PathEvent.leave cur sel.2)) h2 h1
    exact ih _ h3 h4

theorem clip_path_loop_inv (g : GridG) :
    ∀ (rest : List Pt) (cur : Idx) (cp : Pt) (st : PathState),
      st.ok = true → OnlyAt g cur st →
      ((g.clip_path_loop cur cp rest).foldl g.apply_event st).ok = true ∧
        ∀ j, ((g.clip_path_loop cur cp rest).foldl g.apply_event st).bufs j = [] := by
  intro rest
  induction rest with
  | nil =>
    intro cur cp st hok honly
    rw [GridG.clip_path_loop]
    rw [List.foldl_cons, List.foldl_nil]
    constructor
    · rw [apply_leave_ok]
      exact hok
    · exact apply_leave_all_empty g cur cp st honly
  | cons np rest ih =>
    intro cur cp st hok honly
    rw [GridG.clip_path_loop]
    rw [List.foldl_append, List.foldl_append]
    obtain ⟨h1, h2⟩ := walk_inv g cur (g.lookup_point np) cp np st hok honly
    obtain ⟨h3, h4⟩ := apply_step_onlyat g (g.lookup_point np) np _ h2
    rw [List.foldl_cons, List.foldl_nil]
    rw [h1] at h3
    exact ih (g.lookup_point np) np _ h3 h4

/-- C10: between `clip_path` invocations every per-tile work-in-progress
path buffer is empty: starting from all-empty buffers, folding all
`path_enter`/`path_step`/`path_leave` events of one `clip_path` run over the
generator state never fires the `assert_eq!(way.len(), 0)` in `path_enter`
(`ok` stays `true`) and the trailing `path_leave` flush leaves every buffer
empty again. -/
theorem run_path_ok (g : GridG) (path : List Pt) (bufs0 : Nat → List Pt)
    (h0 : ∀ j, bufs0 j = []) :
    (g.run_path path bufs0).ok = true ∧ ∀ j, (g.run_path path bufs0).bufs j = [] := by
  rw [GridG.run_path]
  cases path with
  | nil =>
    rw [GridG.clip_path, List.foldl_nil]
    exact ⟨rfl, h0⟩
  | cons p0 rest =>
    rw [GridG.clip_path, List.foldl_append]
    by_cases hc : g.contains p0
    · simp only [hc, if_true]
      rw [List.foldl_cons, List.foldl_nil]
      obtain ⟨h1, h2⟩ := apply_enter_from_empty g (g.lookup_point p0) p0 ⟨bufs0, [], true⟩
        rfl h0
      exact clip_path_loop_inv g rest (g.lookup_point p0) p0 _ h1 h2
    · simp only [hc, if_false, Bool.false_eq_true]
      rw [List.foldl_nil]
      exact clip_path_loop_inv g rest (g.lookup_point p0) p0 ⟨bufs0, [], true⟩ rfl
        (fun j _ => h0 j)

def in_range (g : GridG) (i : Idx) : Prop :=
  0 ≤ i.1 ∧ i.1 < g.size.1 ∧ 0 ≤ i.2 ∧ i.2 < g.size.2

instance (g : GridG) (i : Idx) : Decidable (in_range g i) := by
  unfold in_range
  infer_instance

theorem safe_vector_index_spec (g : GridG) (i : Idx) :
    (g.safe_vector_index i).elim (¬ in_range g i)
      (fun j => in_range g i ∧ j = (i.1 + g.size.1 * i.2).toNat
        ∧ j < (g.size.1 * g.size.2).toNat) := by
  rw [GridG.safe_vector_index]
  by_cases h : 0 ≤ i.1 ∧ i.1 < g.size.1 ∧ 0 ≤ i.2 ∧ i.2 < g.size.2
  · rw [if_pos h]
    obtain ⟨h1, h2, h3, h4⟩ := h
    refine ⟨⟨h1, h2, h3, h4⟩, rfl, ?_⟩
    have hlt : i.1 + g.size.1 * i.2 < g.size.1 * g.size.2 := by nlinarith
    have hnn : 0 ≤ i.1 + g.size.1 * i.2 := by
      have : (0:ℤ) ≤ g.size.1 * i.2 := mul_nonneg (by omega) h3
      omega
    omega
  · rw [if_neg h]
    exact h

/-- C7 counterexample: the spec claims a polygon ring with fewer than 3
points produces no per-tile output, but a single-point ring lying inside a
tile takes `clip_polygon`'s fast path unchanged and `polygon_add` only
filters *empty* polygons, so the one-point "polygon" is published. -/
theorem single_point_ring_published :
    generator_polygon_add ⟨(0, 0), (1, 1), (1, 1), (1, 1)⟩
      ((⟨(0, 0), (1, 1), (1, 1), (1, 1)⟩ : GridG).clip_polygon
        [((1 : ℚ)/2, (1 : ℚ)/2)])
      = [(0, [((1 : ℚ)/2, (1 : ℚ)/2)])] := by
  have hfl : (⌊((2:ℚ)⁻¹)⌋ : ℤ) = 0 := by norm_num [Int.floor_eq_iff]
  simp [GridG.clip_polygon, GridG.lookup_point, satFloor, indexBoxOf, IndexBox.empty,
    IndexBox.fit, isizeMax, isizeMin, generator_polygon_add, GridG.safe_vector_index, hfl]

/-- C3: `clip_polygon`'s bounding-box traversal is broken by a typo: when the
polygon's index box exceeds the grid's height, the row clamp assigns
`index_box.max.y = self.size.x` (grid.rs line 93) instead of `size.y`.  On a
1×3 grid, a polygon spanning index rows 0..3 must, per the spec, publish a
(possibly empty) clipped polygon to each of the tiles (0,0), (0,1), (0,2);
the code clamps the row range to `size.x = 1` and only tile (0,0) is ever
touched. -/
theorem clip_polygon_row_clamp_bug :
    ((⟨(0, 0), (1, 3), (1, 1), (1, 3)⟩ : GridG).clip_polygon
      [((1 : ℚ)/2, (1 : ℚ)/2), ((1 : ℚ)/2, (7 : ℚ)/2)]).map Prod.fst
      = [((0 : ℤ), (0 : ℤ))] := by
  have h1 : (⌊((2:ℚ)⁻¹)⌋ : ℤ) = 0 := by norm_num [Int.floor_eq_iff]
  have h2 : (⌊((7:ℚ)/2)⌋ : ℤ) = 3 := by norm_num [Int.floor_eq_iff]
  norm_num [GridG.clip_polygon, GridG.lookup_point, satFloor, indexBoxOf, IndexBox.empty,
    IndexBox.fit, isizeMax, isizeMin, intRange, GridG.tile_box, halfPlaneClip, iter_edges,
    lineIntersect, Coord.get, CmpOp.cmp, Prod.ext_iff, List.range_succ, h1, h2]

theorem le_satFloor (q : ℚ) : isizeMin ≤ satFloor q := le_max_left _ _

theorem satFloor_le (q : ℚ) : satFloor q ≤ isizeMax := by
  rw [satFloor]
  exact max_le (by decide) (min_le_left _ _)

theorem fit_self (i : Idx) : IndexBox.fit ⟨i, i⟩ i = ⟨i, i⟩ := by
  simp [IndexBox.fit]

theorem foldl_fit_const (i : Idx) :
    ∀ l : List Idx, (∀ x ∈ l, x = i) → l.foldl IndexBox.fit ⟨i, i⟩ = ⟨i, i⟩ := by
  intro l
  induction l with
  | nil => intro _; rfl
  | cons x xs ih =>
    intro h
    rw [List.foldl_cons, h x (List.mem_cons_self _ _), fit_self]
    exact ih fun y hy => h y (List.mem_cons_of_mem _ hy)

theorem empty_fit (i : Idx) (h1 : isizeMin ≤ i.1) (h2 : i.1 ≤ isizeMax)
    (h3 : isizeMin ≤ i.2) (h4 : i.2 ≤ isizeMax) :
    IndexBox.empty.fit i = ⟨i, i⟩ := by
  rw [IndexBox.empty, IndexBox.fit]
  refine congrArg₂ IndexBox.mk (Prod.ext ?_ ?_) (Prod.ext ?_ ?_) <;> dsimp only <;> omega

theorem foldl_fit_min1_ge (c : ℤ) :
    ∀ (l : List Idx) (b : IndexBox), c ≤ b.min.1 → (∀ x ∈ l, c ≤ x.1) →
      c ≤ (l.foldl IndexBox.fit b).min.1 := by
  intro l
  induction l with
  | nil => intro b hb _; exact hb
  | cons x xs ih =>
    intro b hb h
    rw [List.foldl_cons]
    refine ih _ ?_ fun y hy => h y (List.mem_cons_of_mem _ hy)
    have := h x (List.mem_cons_self _ _)
    rw [IndexBox.fit]
    dsimp only
    omega

theorem foldl_fit_min2_ge (c : ℤ) :
    ∀ (l : List Idx) (b : IndexBox), c ≤ b.min.2 → (∀ x ∈ l, c ≤ x.2) →
      c ≤ (l.foldl IndexBox.fit b).min.2 := by
  intro l
  induction l with
  | nil => intro b hb _; exact hb
  | cons x xs ih =>
    intro b hb h
    rw [List.foldl_cons]
    refine ih _ ?_ fun y hy => h y (List.mem_cons_of_mem _ hy)
    have := h x (List.mem_cons_self _ _)
    rw [IndexBox.fit]
    dsimp only
    omega

theorem foldl_fit_min1_le (c : ℤ) :
    ∀ (l : List Idx) (b : IndexBox), b.min.1 ≤ c ∨ (∃ x ∈ l, x.1 ≤ c) →
      (l.foldl IndexBox.fit b).min.1 ≤ c := by
  intro l
  induction l with
  | nil =>
    intro b hb
    rcases hb with hb | ⟨x, hx, _⟩
    · exact hb
    · exact absurd hx (List.not_mem_nil x)
  | cons x xs ih =>
    intro b hb
    rw [List.foldl_cons]
    rcases hb with hb | ⟨y, hy, hyc⟩
    · refine ih _ (Or.inl ?_)
      rw [IndexBox.fit]
      dsimp only
      omega
    · rcases List.mem_cons.mp hy with rfl | hy'
      · refine ih _ (Or.inl ?_)
        rw [IndexBox.fit]
        dsimp only
        omega
      · exact ih _ (Or.inr ⟨y, hy', hyc⟩)

theorem foldl_fit_min2_le (c : ℤ) :
    ∀ (l : List Idx) (b : IndexBox), b.min.2 ≤ c ∨ (∃ x ∈ l, x.2 ≤ c) →
      (l.foldl IndexBox.fit b).min.2 ≤ c := by
  intro l
  induction l with
  | nil =>
    intro b hb
    rcases hb with hb | ⟨x, hx, _⟩
    · exact hb
    · exact absurd hx (List.not_mem_nil x)
  | cons x xs ih =>
    intro b hb
    rw [List.foldl_cons]
    rcases hb with hb | ⟨y, hy, hyc⟩
    · refine ih _ (Or.inl ?_)
      rw [IndexBox.fit]
      dsimp only
      omega
    · rcases List.mem_cons.mp hy with rfl | hy'
      · refine ih _ (Or.inl ?_)
        rw [IndexBox.fit]
        dsimp only
        omega
      · exact ih _ (Or.inr ⟨y, hy', hyc⟩)

theorem foldl_fit_max1_lt (c : ℤ) :
    ∀ (l : List Idx) (b : IndexBox), b.max.1 < c → (∀ x ∈ l, x.1 < c) →
      (l.foldl IndexBox.fit b).max.1 < c := by
  intro l
  induction l with
  | nil => intro b hb _; exact hb
  | cons x xs ih =>
    intro b hb h
    rw [List.foldl_cons]
    refine ih _ ?_ fun y hy => h y (List.mem_cons_of_mem _ hy)
    have := h x (List.mem_cons_self _ _)
    rw [IndexBox.fit]
    dsimp only
    omega

theorem foldl_fit_max2_lt (c : ℤ) :
    ∀ (l : List Idx) (b : IndexBox), b.max.2 < c → (∀ x ∈ l, x.2 < c) →
      (l.foldl IndexBox.fit b).max.2 < c := by
  intro l
  induction l with
  | nil => intro b hb _; exact hb
  | cons x xs ih =>
    intro b hb h
    rw [List.foldl_cons]
    refine ih _ ?_ fun y hy => h y (List.mem_cons_of_mem _ hy)
    have := h x (List.mem_cons_self _ _)
    rw [IndexBox.fit]
    dsimp only
    omega

theorem intRange_nil {lo hi : ℤ} (h : hi ≤ lo) : intRange lo hi = [] := by
  rw [intRange]
  have : (hi - lo).toNat = 0 := by omega
  rw [this]
  rfl

theorem indexBoxOf_min1_le (l : List Idx) (x : Idx) (hx : x ∈ l) :
    (indexBoxOf l).min.1 ≤ x.1 := by
  rw [indexBoxOf]
  exact foldl_fit_min1_le x.1 l _ (Or.inr ⟨x, hx, le_refl _⟩)

theorem indexBoxOf_min2_le (l : List Idx) (x : Idx) (hx : x ∈ l) :
    (indexBoxOf l).min.2 ≤ x.2 := by
  rw [indexBoxOf]
  exact foldl_fit_min2_le x.2 l _ (Or.inr ⟨x, hx, le_refl _⟩)

theorem indexBoxOf_min1_ge (l : List Idx) (c : ℤ) (hc : c ≤ isizeMax)
    (h : ∀ x ∈ l, c ≤ x.1) : c ≤ (indexBoxOf l).min.1 := by
  rw [indexBoxOf]
  exact foldl_fit_min1_ge c l _ hc h

theorem indexBoxOf_min2_ge (l : List Idx) (c : ℤ) (hc : c ≤ isizeMax)
    (h : ∀ x ∈ l, c ≤ x.2) : c ≤ (indexBoxOf l).min.2 := by
  rw [indexBoxOf]
  exact foldl_fit_min2_ge c l _ hc h

theorem indexBoxOf_max1_lt (l : List Idx) (c : ℤ) (hc : isizeMin < c)
    (h : ∀ x ∈ l, x.1 < c) : (indexBoxOf l).max.1 < c := by
  rw [indexBoxOf]
  exact foldl_fit_max1_lt c l _ hc h

theorem indexBoxOf_max2_lt (l : List Idx) (c : ℤ) (hc : isizeMin < c)
    (h : ∀ x ∈ l, x.2 < c) : (indexBoxOf l).max.2 < c := by
  rw [indexBoxOf]
  exact foldl_fit_max2_lt c l _ hc h

theorem lookup_bounds (g : GridG) (p : Pt) :
    isizeMin ≤ (g.lookup_point p).1 ∧ (g.lookup_point p).1 ≤ isizeMax ∧
      isizeMin ≤ (g.lookup_point p).2 ∧ (g.lookup_point p).2 ≤ isizeMax := by
  rw [GridG.lookup_point]
  exact ⟨le_satFloor _, satFloor_le _, le_satFloor _, satFloor_le _⟩

theorem indexBoxOf_lookup_const (g : GridG) (q : Pt) (qs : List Pt)
    (h : ∀ p ∈ q :: qs, g.lookup_point p = g.lookup_point q) :
    indexBoxOf ((q :: qs).map g.lookup_point)
      = ⟨g.lookup_point q, g.lookup_point q⟩ := by
  obtain ⟨h1, h2, h3, h4⟩ := lookup_bounds g q
  rw [indexBoxOf, List.map_cons, List.foldl_cons, empty_fit _ h1 h2 h3 h4]
  refine foldl_fit_const _ _ fun x hx => ?_
  obtain ⟨p, hp, rfl⟩ := List.mem_map.mp hx
  exact h p (List.mem_cons_of_mem _ hp)

theorem clip_polygon_fast (g : GridG) (q : Pt) (qs : List Pt)
    (h : ∀ p ∈ q :: qs, g.lookup_point p = g.lookup_point q) :
    g.clip_polygon (q :: qs) = [(g.lookup_point q, q :: qs)] := by
  have hbox := indexBoxOf_lookup_const g q qs h
  rw [List.map_cons] at hbox
  simp [GridG.clip_polygon, hbox]

theorem flatMap_const_nil {A B : Type} (l : List A) :
    (l.flatMap fun _ => ([] : List B)) = [] := by
  induction l <;> simp_all

theorem clip_polygon_outside (g : GridG) (q : Pt) (qs : List Pt)
    (hsz1 : 0 ≤ g.size.1) (hsz2 : 0 ≤ g.size.2)
    (h : (∀ p ∈ q :: qs, (g.lookup_point p).1 < 0) ∨
         (∀ p ∈ q :: qs, g.size.1 ≤ (g.lookup_point p).1) ∨
         (∀ p ∈ q :: qs, (g.lookup_point p).2 < 0) ∨
         (∀ p ∈ q :: qs, g.size.2 ≤ (g.lookup_point p).2)) :
    g.polygon_add_delivered (g.clip_polygon (q :: qs)) = [] := by
  have hmem : g.lookup_point q ∈ (q :: qs).map g.lookup_point :=
    List.mem_map_of_mem _ (List.mem_cons_self _ _)
  have hAll : ∀ x ∈ (q :: qs).map g.lookup_point, ∃ p ∈ q :: qs, x = g.lookup_point p := by
    intro x hx
    obtain ⟨p, hp, rfl⟩ := List.mem_map.mp hx
    exact ⟨p, hp, rfl⟩
  rcases h with hL | hR | hD | hU
  · have hq1 : (g.lookup_point q).1 < 0 := hL q (List.mem_cons_self _ _)
    have hmin1 : (indexBoxOf (g.lookup_point q :: qs.map g.lookup_point)).min.1 < 0 := by
      rw [← List.map_cons]
      exact lt_of_le_of_lt (indexBoxOf_min1_le _ _ hmem) hq1
    have hmax1 : (indexBoxOf (g.lookup_point q :: qs.map g.lookup_point)).max.1 < 0 := by
      rw [← List.map_cons]
      refine indexBoxOf_max1_lt _ 0 (by decide) fun x hx => ?_
      obtain ⟨p, hp, rfl⟩ := hAll x hx
      exact hL p hp
    by_cases hfast : (indexBoxOf (g.lookup_point q :: qs.map g.lookup_point)).min
        = (indexBoxOf (g.lookup_point q :: qs.map g.lookup_point)).max
    · have hnone : g.safe_vector_index
          (indexBoxOf (g.lookup_point q :: qs.map g.lookup_point)).min = none := by
        rw [GridG.safe_vector_index, if_neg]
        intro hc
        omega
      simp only [GridG.clip_polygon, List.map_cons]
      rw [if_pos hfast, GridG.polygon_add_delivered]
      simp [hnone]
    · simp only [GridG.clip_polygon, List.map_cons]
      rw [if_neg hfast]
      by_cases hskip : (indexBoxOf (g.lookup_point q :: qs.map g.lookup_point)).min.1 ≥ g.size.1
          ∨ (indexBoxOf (g.lookup_point q :: qs.map g.lookup_point)).min.2 ≥ g.size.2
          ∨ (indexBoxOf (g.lookup_point q :: qs.map g.lookup_point)).max.1 + 1 < 0
          ∨ (indexBoxOf (g.lookup_point q :: qs.map g.lookup_point)).max.2 + 1 < 0
      · rw [if_pos hskip]
        simp [GridG.polygon_add_delivered]
      · rw [if_neg hskip]
        have hxr : intRange
            (if (indexBoxOf (g.lookup_point q :: qs.map g.lookup_point)).min.1 < 0 then 0
              else (indexBoxOf (g.lookup_point q :: qs.map g.lookup_point)).min.1)
            (if (indexBoxOf (g.lookup_point q :: qs.map g.lookup_point)).max.1 + 1 > g.size.1
              then g.size.1
              else (indexBoxOf (g.lookup_point q :: qs.map g.lookup_point)).max.1 + 1)
            = [] := by
          rw [if_pos hmin1, if_neg (by omega)]
          exact intRange_nil (by omega)
        simp [GridG.polygon_add_delivered, hxr, flatMap_const_nil]
  · have hq1 : g.size.1 ≤ (g.lookup_point q).1 := hR q (List.mem_cons_self _ _)
    have hminge : g.size.1 ≤ (indexBoxOf (g.lookup_point q :: qs.map g.lookup_point)).min.1 := by
      rw [← List.map_cons]
      refine indexBoxOf_min1_ge _ _ (le_trans hq1 (lookup_bounds g q).2.1) fun x hx => ?_
      obtain ⟨p, hp, rfl⟩ := hAll x hx
      exact hR p hp
    by_cases hfast : (indexBoxOf (g.lookup_point q :: qs.map g.lookup_point)).min
        = (indexBoxOf (g.lookup_point q :: qs.map g.lookup_point)).max
    · have hnone : g.safe_vector_index
          (indexBoxOf (g.lookup_point q :: qs.map g.lookup_point)).min = none := by
        rw [GridG.safe_vector_index, if_neg]
        intro hc
        omega
      simp only [GridG.clip_polygon, List.map_cons]
      rw [if_pos hfast, GridG.polygon_add_delivered]
      simp [hnone]
    · simp only [GridG.clip_polygon, List.map_cons]
      rw [if_neg hfast, if_pos (Or.inl hminge)]
      simp [GridG.polygon_add_delivered]
  · have hq2 : (g.lookup_point q).2 < 0 := hD q (List.mem_cons_self _ _)
    have hmin2 : (indexBoxOf (g.lookup_point q :: qs.map g.lookup_point)).min.2 < 0 := by
      rw [← List.map_cons]
      exact lt_of_le_of_lt (indexBoxOf_min2_le _ _ hmem) hq2
    have hmax2 : (indexBoxOf (g.lookup_point q :: qs.map g.lookup_point)).max.2 < 0 := by
      rw [← List.map_cons]
      refine indexBoxOf_max2_lt _ 0 (by decide) fun x hx => ?_
      obtain ⟨p, hp, rfl⟩ := hAll x hx
      exact hD p hp
    by_cases hfast : (indexBoxOf (g.lookup_point q :: qs.map g.lookup_point)).min
        = (indexBoxOf (g.lookup_point q :: qs.map g.lookup_point)).max
    · have hnone : g.safe_vector_index
          (indexBoxOf (g.lookup_point q :: qs.map g.lookup_point)).min = none := by
        rw [GridG.safe_vector_index, if_neg]
        intro hc
        omega
      simp only [GridG.clip_polygon, List.map_cons]
      rw [if_pos hfast, GridG.polygon_add_delivered]
      simp [hnone]
    · simp only [GridG.clip_polygon, List.map_cons]
      rw [if_neg hfast]
      by_cases hskip : (indexBoxOf (g.lookup_point q :: qs.map g.lookup_point)).min.1 ≥ g.size.1
          ∨ (indexBoxOf (g.lookup_point q :: qs.map g.lookup_point)).min.2 ≥ g.size.2
          ∨ (indexBoxOf (g.lookup_point q :: qs.map g.lookup_point)).max.1 + 1 < 0
          ∨ (indexBoxOf (g.lookup_point q :: qs.map g.lookup_point)).max.2 + 1 < 0
      · rw [if_pos hskip]
        simp [GridG.polygon_add_delivered]
      · rw [if_neg hskip]
        have hyr : intRange
            (if (indexBoxOf (g.lookup_point q :: qs.map g.lookup_point)).min.2 < 0 then 0
              else (indexBoxOf (g.lookup_point q :: qs.map g.lookup_point)).min.2)
            (if (indexBoxOf (g.lookup_point q :: qs.map g.lookup_point)).max.2 + 1 > g.size.2
              then g.size.1
              else (indexBoxOf (g.lookup_point q :: qs.map g.lookup_point)).max.2 + 1)
            = [] := by
          rw [if_pos hmin2, if_neg (by omega)]
          exact intRange_nil (by omega)
        simp [GridG.polygon_add_delivered, hyr]
  · have hq2 : g.size.2 ≤ (g.lookup_point q).2 := hU q (List.mem_cons_self _ _)
    have hminge : g.size.2 ≤ (indexBoxOf (g.lookup_point q :: qs.map g.lookup_point)).min.2 := by
      rw [← List.map_cons]
      refine indexBoxOf_min2_ge _ _ (le_trans hq2 (lookup_bounds g q).2.2.2) fun x hx => ?_
      obtain ⟨p, hp, rfl⟩ := hAll x hx
      exact hU p hp
    by_cases hfast : (indexBoxOf (g.lookup_point q :: qs.map g.lookup_point)).min
        = (indexBoxOf (g.lookup_point q :: qs.map g.lookup_point)).max
    · have hnone : g.safe_vector_index
          (indexBoxOf (g.lookup_point q :: qs.map g.lookup_point)).min = none := by
        rw [GridG.safe_vector_index, if_neg]
        intro hc
        omega
      simp only [GridG.clip_polygon, List.map_cons]
      rw [if_pos hfast, GridG.polygon_add_delivered]
      simp [hnone]
    · simp only [GridG.clip_polygon, List.map_cons]
      rw [if_neg hfast, if_pos (Or.inr (Or.inl hminge))]
      simp [GridG.polygon_add_delivered]

theorem way_handler_short {N : Type} (g : GridG) (proj : N → Option Pt) (getId : N → Int)
    (nodes : List N) (h : nodes.length < 2) : way_handler g proj getId nodes = [] := by
  match nodes with
  | [] => rfl
  | [n] => simp [way_handler]
  | a :: b :: rest =>
    simp only [List.length_cons] at h
    omega

theorem clip_polygon_single (g : GridG) (p : Pt) (j : Nat)
    (hj : g.safe_vector_index (g.lookup_point p) = some j) :
    generator_polygon_add g (g.clip_polygon [p]) = [(j, [p])] := by
  rw [clip_polygon_fast g p [] (fun r hr => by rw [List.mem_singleton.mp hr])]
  simp [generator_polygon_add, hj]

theorem lookup_eval_half :
    (⟨(0, 0), (1, 1), (1, 1), (1, 1)⟩ : GridG).lookup_point ((1 : ℚ)/2, (1 : ℚ)/2)
      = ((0 : ℤ), (0 : ℤ)) := by
  have hfl : (⌊((2:ℚ)⁻¹)⌋ : ℤ) = 0 := by norm_num [Int.floor_eq_iff]
  simp [GridG.lookup_point, satFloor, isizeMax, isizeMin, hfl]

theorem lookup_eval_neghalf :
    (⟨(0, 0), (1, 1), (1, 1), (1, 1)⟩ : GridG).lookup_point (-(1 : ℚ)/2, -(1 : ℚ)/2)
      = ((-1 : ℤ), (-1 : ℤ)) := by
  have hfl : (⌊((-1 : ℚ) / 2)⌋ : ℤ) = -1 := by norm_num [Int.floor_eq_iff]
  simp [GridG.lookup_point, satFloor, isizeMax, isizeMin, hfl]

/-- C4: if every vertex of a (nonempty) polygon maps to the same tile index,
`clip_polygon` takes the fast path and publishes the polygon to that tile
with the vertex sequence unmodified; and if the polygon lies entirely
outside the grid (all vertices beyond the same side of the valid index
range), no tile receives any geometry at all (`polygon_add` drops
everything).  `0 ≤ size` mirrors `Grid::new`, which builds `size` from
`usize` step counts. -/
theorem clip_polygon_fast_path_and_outside (g : GridG) (q : Pt) (qs : List Pt)
    (hsz1 : 0 ≤ g.size.1) (hsz2 : 0 ≤ g.size.2) :
    ((∀ p ∈ q :: qs, g.lookup_point p = g.lookup_point q) →
      g.clip_polygon (q :: qs) = [(g.lookup_point q, q :: qs)]) ∧
    (((∀ p ∈ q :: qs, (g.lookup_point p).1 < 0) ∨
      (∀ p ∈ q :: qs, g.size.1 ≤ (g.lookup_point p).1) ∨
      (∀ p ∈ q :: qs, (g.lookup_point p).2 < 0) ∨
      (∀ p ∈ q :: qs, g.size.2 ≤ (g.lookup_point p).2)) →
      g.polygon_add_delivered (g.clip_polygon (q :: qs)) = []) :=
  ⟨fun h => clip_polygon_fast g q qs h, fun h => clip_polygon_outside g q qs hsz1 hsz2 h⟩

theorem clip_polygon_fast_path_and_outside_w :
    (⟨(0, 0), (1, 1), (1, 1), (1, 1)⟩ : GridG).clip_polygon [((1 : ℚ)/2, (1 : ℚ)/2)]
        = [(((0 : ℤ), (0 : ℤ)), [((1 : ℚ)/2, (1 : ℚ)/2)])] ∧
      GridG.polygon_add_delivered ⟨(0, 0), (1, 1), (1, 1), (1, 1)⟩
        ((⟨(0, 0), (1, 1), (1, 1), (1, 1)⟩ : GridG).clip_polygon
          [(-(1 : ℚ)/2, -(1 : ℚ)/2)]) = [] := by
  constructor
  · have h := (clip_polygon_fast_path_and_outside ⟨(0, 0), (1, 1), (1, 1), (1, 1)⟩
      ((1 : ℚ)/2, (1 : ℚ)/2) [] (by decide) (by decide)).1
      (fun p hp => by rw [List.mem_singleton.mp hp])
    rw [h, lookup_eval_half]
  · exact (clip_polygon_fast_path_and_outside ⟨(0, 0), (1, 1), (1, 1), (1, 1)⟩
      (-(1 : ℚ)/2, -(1 : ℚ)/2) [] (by decide) (by decide)).2
      (Or.inl fun p hp => by rw [List.mem_singleton.mp hp, lookup_eval_neghalf]; decide)

/-- C7 amended: a path with fewer than 2 points produces no events at all —
`WorldGenerator::way` skips node-less ways and ways whose first and last
node ids coincide, which covers every singleton — but degenerate polygon
rings are *not* dropped: a single-point ring on an in-range tile is
published to that tile (only empty clip results are filtered). -/
theorem degenerate_path_dropped_small_ring_published {N : Type}
    (g : GridG) (proj : N → Option Pt) (getId : N → Int) (nodes : List N)
    (p : Pt) (j : Nat) :
    (nodes.length < 2 → way_handler g proj getId nodes = []) ∧
    (g.safe_vector_index (g.lookup_point p) = some j →
      generator_polygon_add g (g.clip_polygon [p]) = [(j, [p])]) :=
  ⟨fun h => way_handler_short g proj getId nodes h, fun h => clip_polygon_single g p j h⟩

theorem degenerate_path_dropped_small_ring_published_w :
    way_handler (⟨(0, 0), (1, 1), (1, 1), (1, 1)⟩ : GridG)
        (fun _ : Unit => (none : Option Pt)) (fun _ => (0 : ℤ)) [()] = [] ∧
      generator_polygon_add ⟨(0, 0), (1, 1), (1, 1), (1, 1)⟩
        ((⟨(0, 0), (1, 1), (1, 1), (1, 1)⟩ : GridG).clip_polygon
          [((1 : ℚ)/2, (1 : ℚ)/2)]) = [((0 : ℕ), [((1 : ℚ)/2, (1 : ℚ)/2)])] := by
  constructor
  · exact (degenerate_path_dropped_small_ring_published
      (⟨(0, 0), (1, 1), (1, 1), (1, 1)⟩ : GridG) (fun _ : Unit => none) (fun _ => 0) [()]
      ((1 : ℚ)/2, (1 : ℚ)/2) 0).1 (by decide)
  · exact (degenerate_path_dropped_small_ring_published
      (⟨(0, 0), (1, 1), (1, 1), (1, 1)⟩ : GridG) (fun _ : Unit => none) (fun _ => 0) [()]
      ((1 : ℚ)/2, (1 : ℚ)/2) 0).2 (by rw [lookup_eval_half]; decide)

/-- C9: every tile access of the clipping operations is bounds-checked.
`safe_vector_index` returns `some` exactly on indices with
`0 ≤ x < size.x` and `0 ≤ y < size.y`, the flattened index it returns is
`x + size.x * y`, which is a valid position in the `size.x * size.y`-element
tile vector; and `clip_point` silently drops a point whose index is out of
range. -/
theorem tile_mutations_bounds_checked (g : GridG) (i : Idx) (p : Pt) :
    ((g.safe_vector_index i).elim (¬ in_range g i)
      (fun j => in_range g i ∧ j = (i.1 + g.size.1 * i.2).toNat
        ∧ j < (g.size.1 * g.size.2).toNat)) ∧
    (g.safe_vector_index (g.lookup_point p) = none → g.clip_point p = []) :=
  ⟨safe_vector_index_spec g i, fun h => by rw [GridG.clip_point, h]⟩

theorem tile_mutations_bounds_checked_w :
    (((⟨(0, 0), (1, 1), (1, 1), (1, 1)⟩ : GridG).safe_vector_index ((0 : ℤ), (0 : ℤ))).elim
      (¬ in_range ⟨(0, 0), (1, 1), (1, 1), (1, 1)⟩ ((0 : ℤ), (0 : ℤ)))
      (fun j => in_range ⟨(0, 0), (1, 1), (1, 1), (1, 1)⟩ ((0 : ℤ), (0 : ℤ)) ∧
        j = ((0 : ℤ) + 1 * (0 : ℤ)).toNat ∧ j < ((1 : ℤ) * 1).toNat)) ∧
    (⟨(0, 0), (1, 1), (1, 1), (1, 1)⟩ : GridG).clip_point (-(1 : ℚ)/2, -(1 : ℚ)/2) = [] :=
  ⟨(tile_mutations_bounds_checked ⟨(0, 0), (1, 1), (1, 1), (1, 1)⟩ ((0 : ℤ), (0 : ℤ))
      (-(1 : ℚ)/2, -(1 : ℚ)/2)).1,
    (tile_mutations_bounds_checked ⟨(0, 0), (1, 1), (1, 1), (1, 1)⟩ ((0 : ℤ), (0 : ℤ))
      (-(1 : ℚ)/2, -(1 : ℚ)/2)).2 (by rw [lookup_eval_neghalf]; decide)⟩

theorem run_path_ok_w :
    ((⟨(0, 0), (1, 1), (1, 1), (1, 1)⟩ : GridG).run_path [((1 : ℚ)/2, (1 : ℚ)/2)]
        (fun _ => [])).ok = true ∧
      ((⟨(0, 0), (1, 1), (1, 1), (1, 1)⟩ : GridG).run_path [((1 : ℚ)/2, (1 : ℚ)/2)]
        (fun _ => [])).bufs 0 = [] :=
  ⟨(run_path_ok _ _ _ (fun _ => rfl)).1, (run_path_ok _ _ _ (fun _ => rfl)).2 0⟩
